import Mathlib

/-!
Verification of simple_parser.

A shallow embedding of `src/src/parser.cxx` (the `Lexer` and the `Parser` of
namespace `parsing`) and of the input stream it reads from.

Conventions of the embedding.

* A `char` is a byte, kept as a `Nat` below 256.  `std::istream::peek` and
  `get` return `traits::eof()` (that is, -1) at the end of the data; stored in a
  `char` this is the byte `0xFF`, here `eofChar`.
* The stream is a `std::istringstream`: its data, the read offset and the
  two state bits that such a stream can raise (`eofbit`, `failbit`).
  `badbit` is never raised by an in-memory stream.
* A C++ exception of class `parsing::Exception` is the `thrown` outcome of a
  `Step`; the stream it leaves behind is kept, since `Lexer::getNext`
  catches the exception and goes on using the stream.
* Loops run on fuel; a loop that exhausts its fuel is the outcome `hang`
  (the C++ loop would not return).
* `expect` is declared `bool` in the source but has no `return`; nothing
  reads its value, it is embedded as a procedure.
* `makeCodeunits` returns a `std::initializer_list<char>` over an array that
  is dead when the function has returned, so the bytes that `readEscaped`
  copies from it are indeterminate; their number is not.  The embedding keeps
  the bytes that the function lists.  Of a value that holds a `\x` escape,
  the kind of the token and the number of its bytes are those of the code;
  the bytes that the escape stands for are those listed, which the code
  need not deliver.
-/

namespace parsing

/-! ## Tokens (parser.hxx) -/

/-- Kinds of token, `enum class TokenKind`. -/
inductive TokenKind where
  | Unknown
  | Key
  | Value
  | SectionBegin
  | SectionEnd
  | EntrySeparator
  | KeyValueSeparator
  | ParseEnd
  | ParseError
deriving DecidableEq

/-- Class `Token`: a kind and a text (`std::string`, a sequence of bytes). -/
structure Token where
  m_kind : TokenKind
  m_value : List Nat
deriving DecidableEq

/-- Default constructor `Token::Token()`. -/
def Token.default : Token := ⟨TokenKind.Unknown, []⟩

/-- Conversion `Token::operator bool`. -/
def Token.toBool (t : Token) : Bool := t.m_kind != TokenKind.Unknown

/-- Bytes of an ASCII string literal of the source. -/
def strBytes (s : String) : List Nat := s.toList.map Char.toNat

/-! ## The input stream (`std::istringstream`) -/

/-- The value `static_cast<char>(traits::eof())`. -/
def eofChar : Nat := 255

/-- State of a `std::istringstream` opened on `data`. -/
structure IStream where
  data : List Nat
  pos : Nat
  eofbit : Bool
  failbit : Bool
deriving DecidableEq

namespace IStream

/-- A fresh stream over the given bytes. -/
def ofBytes (data : List Nat) : IStream := ⟨data, 0, false, false⟩

/-- Member `good()`: no state bit is set. -/
def good (s : IStream) : Bool := !s.eofbit && !s.failbit

/-- Member `peek()`: the next byte without extracting it.  At the end of the
data `eofbit` is raised; on a stream that is not good the sentry raises
`failbit`.  Both return `traits::eof()`. -/
def peek (s : IStream) : Nat × IStream :=
  if s.good then
    match s.data[s.pos]? with
    | some c => (c, s)
    | none => (eofChar, { s with eofbit := true })
  else (eofChar, { s with failbit := true })

/-- Member `get()`: extracts one byte.  At the end of the data both `eofbit`
and `failbit` are raised. -/
def get (s : IStream) : Nat × IStream :=
  if s.good then
    match s.data[s.pos]? with
    | some c => (c, { s with pos := s.pos + 1 })
    | none => (eofChar, { s with eofbit := true, failbit := true })
  else (eofChar, { s with failbit := true })

/-- Member `tellg()`: the read offset, or -1 on a stream that is not good
(the sentry then raises `failbit`). -/
def tellg (s : IStream) : Int × IStream :=
  if s.good then ((s.pos : Int), s) else (-1, { s with failbit := true })

/-- Member `seekg(pos)`: clears `eofbit`; then, unless the stream has failed,
moves the read offset, raising `failbit` when the offset is outside the
data. -/
def seekg (p : Int) (s : IStream) : IStream :=
  let s1 := { s with eofbit := false }
  if s1.failbit then s1
  else if 0 ≤ p ∧ p ≤ (s1.data.length : Int) then { s1 with pos := p.toNat }
  else { s1 with failbit := true }

end IStream

/-! ## Character classes of the classic "C" locale (`s_cLocale`) -/

/-- Function `std::isspace(c, s_cLocale)`. -/
def isspace (c : Nat) : Bool := c == 0x20 || (0x09 ≤ c && c ≤ 0x0D)

/-- Function `std::iscntrl(c, s_cLocale)`. -/
def iscntrl (c : Nat) : Bool := c < 0x20 || c == 0x7F

/-- Function `std::isalpha(c, s_cLocale)`. -/
def isalpha (c : Nat) : Bool := (0x41 ≤ c && c ≤ 0x5A) || (0x61 ≤ c && c ≤ 0x7A)

/-- Function `std::isdigit(c, s_cLocale)`. -/
def isdigit (c : Nat) : Bool := 0x30 ≤ c && c ≤ 0x39

/-! ## Outcome of a lexer routine -/

/-- Outcome of a routine that reads from the stream: a value, a thrown
`Exception` with its message, or a loop that never returns. -/
inductive Step (α : Type) where
  | ok (val : α) (s : IStream)
  | thrown (msg : String) (s : IStream)
  | hang

/-- Sequencing of two routines; an exception or a hang ends the sequence. -/
def Step.bind {α β : Type} (x : Step α) (f : α → IStream → Step β) : Step β :=
  match x with
  | Step.ok a s => f a s
  | Step.thrown m s => Step.thrown m s
  | Step.hang => Step.hang

/-! ## `Lexer::impl` -/

def s_keySeparator : Nat := 0x3A
def s_entrySeparator : Nat := 0x2C
def s_sectionBegin : Nat := 0x7B
def s_sectionEnd : Nat := 0x7D
def s_valueBegin : Nat := 0x22
def s_valueEnd : Nat := 0x22
def s_escape : Nat := 0x5C

/-- Method `Lexer::getChar`. -/
def getChar (s : IStream) : Step Nat :=
  if s.eofbit then Step.thrown "Unexpected end of data" s
  else Step.ok s.get.1 s.get.2

/-- Method `Lexer::peekChar`. -/
def peekChar (s : IStream) : Nat × IStream := s.peek

/-- Method `Lexer::getPosition`. -/
def getPosition (s : IStream) : Int × IStream := s.tellg

/-- Function `isIgnored`. -/
def isIgnored (c : Nat) : Bool := isspace c || iscntrl c

/-- Function `isKeyBeginner`. -/
def isKeyBeginner (c : Nat) : Bool := isalpha c || isdigit c || c == 0x5F

/-- Overload `check(lexer, char)`. -/
def check (expected : Nat) (s : IStream) : Bool × IStream :=
  ((peekChar s).1 == expected, (peekChar s).2)

/-- The loop of `check(lexer, std::string)`: `c` is the byte last peeked. -/
def checkStrLoop : List Nat → Nat → IStream → Step Bool
  | [], _, s => Step.ok true s
  | e :: es, c, s =>
    if c == e then
      (getChar s).bind fun _ s1 => checkStrLoop es (peekChar s1).1 (peekChar s1).2
    else Step.ok false s

/-- Overload `check(lexer, std::string)`: compares the coming bytes with
`expected` and seeks back to where it started. -/
def checkStr (expected : List Nat) (s : IStream) : Step Bool :=
  let startPos := s.tellg
  let p := peekChar startPos.2
  (checkStrLoop expected p.1 p.2).bind fun result s1 =>
    Step.ok result (s1.seekg startPos.1)

/-- The loop `for (i = 0; i != expected.size(); ++i) lexer.getChar();`. -/
def getChars : Nat → IStream → Step Unit
  | 0, s => Step.ok () s
  | n + 1, s => (getChar s).bind fun _ s1 => getChars n s1

/-- Overload `expect(lexer, std::string, failMessage)`. -/
def expectStr (expected : List Nat) (failMessage : String) (s : IStream) : Step Unit :=
  (checkStr expected s).bind fun ok s1 =>
    if !ok then Step.thrown failMessage s1
    else getChars expected.length s1

/-- Overload `expect(lexer, char, failMessage)`. -/
def expect (expected : Nat) (failMessage : String) (s : IStream) : Step Unit :=
  let r := check expected s
  if !r.1 then Step.thrown failMessage r.2
  else (getChar r.2).bind fun _ s1 => Step.ok () s1

/-- Function `skipBom`. -/
def skipBom (s : IStream) : Step Unit :=
  let r := check 0xEF s
  if r.1 then
    (getChar r.2).bind fun _ s1 => expectStr [0xBB, 0xBF] "Wrong BOM" s1
  else Step.ok () r.2

/-- The loop of `skipIgnored`: `symbol` is the byte last peeked. -/
def skipIgnoredLoop : Nat → Nat → IStream → Step Unit
  | 0, _, _ => Step.hang
  | fuel + 1, symbol, s =>
    if isIgnored symbol then
      (getChar s).bind fun _ s1 => skipIgnoredLoop fuel (peekChar s1).1 (peekChar s1).2
    else Step.ok () s

/-- Function `skipIgnored`. -/
def skipIgnored (s : IStream) : Step Unit :=
  skipIgnoredLoop (s.data.length + 1) (peekChar s).1 (peekChar s).2

/-- Type `CodePoint` is `int`; no operation below leaves the range of a
32-bit `int`, so it is an unbounded integer here.  A left shift `x << n` of a
value that is not negative is written `x * 2 ^ n`. -/
abbrev CodePoint := Int

/-- The loop of `makeCodepoint` from index `i` on, with the value summed so
far; the first byte that is not a hexadecimal digit throws. -/
def makeCodepointLoop : List Nat → Nat → CodePoint → Except String CodePoint
  | [], _, codepoint => Except.ok codepoint
  | digit :: ds, i, codepoint =>
    let power := (4 - 1 - i) * 4
    if 0x30 ≤ digit ∧ digit ≤ 0x39 then
      makeCodepointLoop ds (i + 1) (codepoint + ((digit : Int) - 0x30) * 2 ^ power)
    else if 0x61 ≤ digit ∧ digit ≤ 0x66 then
      makeCodepointLoop ds (i + 1) (codepoint + ((digit : Int) - 0x61) * 2 ^ power)
    else if 0x41 ≤ digit ∧ digit ≤ 0x46 then
      makeCodepointLoop ds (i + 1) (codepoint + ((digit : Int) - 0x41) * 2 ^ power)
    else Except.error "Unexpected symbol found in escape sequence"

/-- Function `makeCodepoint`: the code point of an escape sequence of four
bytes. -/
def makeCodepoint (escapeSequence : List Nat) : Except String CodePoint :=
  match makeCodepointLoop escapeSequence 0 0 with
  | Except.ok codepoint =>
    if (decide (0 ≤ codepoint ∧ codepoint ≤ 0xFFFF)) == false then
      Except.error "Wrong escaped codepoint"
    else Except.ok codepoint
  | Except.error m => Except.error m

/-- Conversion `static_cast<char>(int)`: the low eight bits. -/
def toChar (x : Int) : Nat := (x % 256).toNat

/-- Function `makeCodeunits`: the bytes it lists for a code point, one to
four of them.  The source returns a `std::initializer_list<char>` that views
the array of these bytes; the array is a temporary of the `return` statement
and is dead when the caller reads it.  The number of the bytes is that of the
code, the bytes themselves are what the function lists, not what its caller
finds. -/
def makeCodeunits (codepoint : CodePoint) : List Nat :=
  if codepoint < 0x80 then
    [toChar codepoint]
  else if codepoint ≤ 0x7FF then
    [toChar (Int.lor 0xC0 (codepoint >>> (6 : Nat))),
     toChar (Int.lor 0x80 (Int.land codepoint 0x3F))]
  else if codepoint ≤ 0xFFFF then
    [toChar (Int.lor 0xE0 (codepoint >>> (12 : Nat))),
     toChar (Int.lor 0x80 (Int.land (codepoint >>> (6 : Nat)) 0x3F)),
     toChar (Int.lor 0x80 (Int.land codepoint 0x3F))]
  else
    [toChar (Int.lor 0xF0 (codepoint >>> (18 : Nat))),
     toChar (Int.lor 0x80 (Int.land (codepoint >>> (12 : Nat)) 0x3F)),
     toChar (Int.lor 0x80 (Int.land (codepoint >>> (6 : Nat)) 0x3F)),
     toChar (Int.lor 0x80 (Int.land codepoint 0x3F))]

/-- The lambda `isKeyInternal` of `readKey`. -/
def isKeyInternal (c : Nat) : Bool := isalpha c || isdigit c || c == 0x5F

/-- The loop of `readKey`: `c` is the byte last peeked. -/
def readKeyLoop : Nat → Nat → List Nat → IStream → Step Token
  | 0, _, _, _ => Step.hang
  | fuel + 1, c, buffer, s =>
    if c != s_keySeparator && !isIgnored c then
      if !isKeyInternal c then Step.thrown "Unexpected symbol found in key" s
      else
        (getChar s).bind fun _ s1 =>
          readKeyLoop fuel (peekChar s1).1 (buffer ++ [c]) (peekChar s1).2
    else Step.ok ⟨TokenKind.Key, buffer⟩ s

/-- Function `readKey`. -/
def readKey (s : IStream) : Step Token :=
  readKeyLoop (s.data.length + 1) (peekChar s).1 [] (peekChar s).2

/-- Function `readEscapedCodepoint`: four bytes, then `makeCodepoint`. -/
def readEscapedCodepoint (s : IStream) : Step CodePoint :=
  (getChar s).bind fun e0 s0 =>
  (getChar s0).bind fun e1 s1 =>
  (getChar s1).bind fun e2 s2 =>
  (getChar s2).bind fun e3 s3 =>
    match makeCodepoint [e0, e1, e2, e3] with
    | Except.ok codepoint => Step.ok codepoint s3
    | Except.error m => Step.thrown m s3

/-- Function `isHighSurrogate`. -/
def isHighSurrogate (codepoint : CodePoint) : Bool :=
  decide (0xD800 ≤ codepoint) && decide (codepoint ≤ 0xDBFF)

/-- Function `isLowSurrogate`. -/
def isLowSurrogate (codepoint : CodePoint) : Bool :=
  decide (0xDC00 ≤ codepoint) && decide (codepoint ≤ 0xDFFF)

/-- Function `makeSurrogate`. -/
def makeSurrogate (codepoint1 codepoint2 : CodePoint) : CodePoint :=
  codepoint1 * 2 ^ 10 + codepoint2 - 0x35FDC00

/-- The lambda `readEscaped` of `readValue`, called after the backslash. -/
def readEscaped (s : IStream) : Step (List Nat) :=
  let cn := check 0x6E s
  if cn.1 then (getChar cn.2).bind fun _ s1 => Step.ok [0x0A] s1
  else
    let cr := check 0x72 cn.2
    if cr.1 then (getChar cr.2).bind fun _ s1 => Step.ok [0x0D] s1
    else
      let ce := check s_escape cr.2
      if ce.1 then (getChar ce.2).bind fun _ s1 => Step.ok [s_escape] s1
      else
        let cx := check 0x78 ce.2
        if cx.1 then
          (getChar cx.2).bind fun _ s1 =>
          (readEscapedCodepoint s1).bind fun codepoint s2 =>
            if isHighSurrogate codepoint then
              (expectStr [s_escape, 0x78] "Expected low surrogate in pair" s2).bind fun _ s3 =>
              (readEscapedCodepoint s3).bind fun lowSurrogate s4 =>
                if !isLowSurrogate lowSurrogate then
                  Step.thrown "Wrong low surrogate in pair" s4
                else Step.ok (makeCodeunits (makeSurrogate codepoint lowSurrogate)) s4
            else Step.ok (makeCodeunits codepoint) s2
        else Step.thrown "Unknown escape sequence" cx.2

/-- The lambda `readUnescaped` of `readValue`. -/
def readUnescaped (s : IStream) : Step Nat :=
  let p := peekChar s
  if iscntrl p.1 then Step.thrown "Unexpected character" p.2
  else (getChar p.2).bind fun _ s1 => Step.ok p.1 s1

/-- The loop of `readValue`: `c` is the byte last peeked.  The loop ends on a
peeked `s_valueEnd`, which it leaves in the stream. -/
def readValueLoop : Nat → Nat → List Nat → IStream → Step Token
  | 0, _, _, _ => Step.hang
  | fuel + 1, c, buffer, s =>
    if c != s_valueEnd then
      let ce := check s_escape s
      if ce.1 then
        (getChar ce.2).bind fun _ s1 =>
        (readEscaped s1).bind fun bytes s2 =>
          readValueLoop fuel (peekChar s2).1 (buffer ++ bytes) (peekChar s2).2
      else
        (readUnescaped ce.2).bind fun ch s1 =>
          readValueLoop fuel (peekChar s1).1 (buffer ++ [ch]) (peekChar s1).2
    else Step.ok ⟨TokenKind.Value, buffer⟩ s

/-- Function `readValue`. -/
def readValue (s : IStream) : Step Token :=
  (expect s_valueBegin "Expected value" s).bind fun _ s1 =>
    readValueLoop (s1.data.length + 1) (peekChar s1).1 [] (peekChar s1).2

/-- Function `readSectionBegin`; the source returns the kind
`KeyValueSeparator`. -/
def readSectionBegin (s : IStream) : Step Token :=
  (expect s_sectionBegin "Expected section begin" s).bind fun _ s1 =>
    Step.ok ⟨TokenKind.KeyValueSeparator, [s_sectionBegin]⟩ s1

/-- Function `readSectionEnd`; the source returns the kind
`KeyValueSeparator`. -/
def readSectionEnd (s : IStream) : Step Token :=
  (expect s_sectionEnd "Expected section end" s).bind fun _ s1 =>
    Step.ok ⟨TokenKind.KeyValueSeparator, [s_sectionEnd]⟩ s1

/-- Function `readKeySeparator`. -/
def readKeySeparator (s : IStream) : Step Token :=
  (expect s_keySeparator "Expected key separator" s).bind fun _ s1 =>
    Step.ok ⟨TokenKind.KeyValueSeparator, [s_keySeparator]⟩ s1

/-- Function `readEntrySeparator`. -/
def readEntrySeparator (s : IStream) : Step Token :=
  (expect s_entrySeparator "Expected entry separator" s).bind fun _ s1 =>
    Step.ok ⟨TokenKind.EntrySeparator, [s_entrySeparator]⟩ s1

/-- Function `checkIsKey`. -/
def checkIsKey (s : IStream) : Bool × IStream :=
  (isKeyBeginner (peekChar s).1, (peekChar s).2)

/-- The dispatch at the end of `readToken`, on a good stream. -/
def readTokenDispatch (s : IStream) : Step Token :=
  let c1 := check s_sectionBegin s
  if c1.1 then readSectionBegin c1.2
  else
    let c2 := checkIsKey c1.2
    if c2.1 then readKey c2.2
    else
      let c3 := check s_keySeparator c2.2
      if c3.1 then readKeySeparator c3.2
      else
        let c4 := check s_entrySeparator c3.2
        if c4.1 then readEntrySeparator c4.2
        else
          let c5 := check s_sectionEnd c4.2
          if c5.1 then readSectionEnd c5.2
          else
            let c6 := check s_valueBegin c5.2
            if c6.1 then readValue c6.2
            else Step.ok ⟨TokenKind.ParseError, strBytes "Syntax error"⟩ c6.2

/-- Function `readToken`. -/
def readToken (s : IStream) : Step Token :=
  let p := getPosition s
  (if p.1 == 0 then skipBom p.2 else Step.ok () p.2).bind fun _ s1 =>
  (skipIgnored s1).bind fun _ s2 =>
    if !s2.good then
      if s2.eofbit then Step.ok ⟨TokenKind.ParseEnd, []⟩ s2
      else Step.thrown "Input stream error" s2
    else readTokenDispatch s2

/-! ## Class `Lexer` -/

/-- Class `Lexer`: the stream it reads and the token it last made.  A
`Token const&` returned by `getCurrent` or `getNext` refers to `m_lastToken`
of the lexer after the call. -/
structure Lexer where
  m_stream : IStream
  m_lastToken : Token
deriving DecidableEq

namespace Lexer

/-- Constructor `Lexer::Lexer(std::istream&)`. -/
def new (s : IStream) : Lexer := ⟨s, Token.default⟩

/-- Method `Lexer::isFinished`. -/
def isFinished (l : Lexer) : Bool := l.m_lastToken.m_kind == TokenKind.ParseEnd

/-- Method `Lexer::getNext`; `none` when `readToken` never returns. -/
def getNext (l : Lexer) : Option Lexer :=
  if l.isFinished then some l
  else
    match readToken l.m_stream with
    | Step.ok t s => some ⟨s, t⟩
    | Step.thrown what s =>
      some ⟨s.tellg.2, ⟨TokenKind.ParseError,
        strBytes ("Parse error at position " ++ toString s.tellg.1 ++ ": " ++ what)⟩⟩
    | Step.hang => none

/-- Method `Lexer::getCurrent`. -/
def getCurrent (l : Lexer) : Option Lexer :=
  if !l.m_lastToken.toBool || !l.isFinished then l.getNext
  else some l

end Lexer

/-! ## Class `Parser` -/

/-- Kinds of error, `enum class ParsingErrorKind`. -/
inductive ParsingErrorKind where
  | UnexpectedTokenReceived
  | UnexpectedDataEnd
deriving DecidableEq

/-- Struct `ParsingError`. -/
structure ParsingError where
  m_kind : ParsingErrorKind
  m_position : Int
deriving DecidableEq

/-- Type `Parser::Key`, a `std::string`. -/
abbrev Key := List Nat

/-- Type `Parser::Value`, a `std::string`. -/
abbrev Value := List Nat

/-- Type `Parser::ParsedTree`, a `std::map<Key, Value>`: the entries in
increasing order of their keys, no key twice. -/
abbrev ParsedTree := List (Key × Value)

/-- Order of `std::string` keys in `std::less`: bytewise lexicographic. -/
def keyLess : Key → Key → Bool
  | [], [] => false
  | [], _ :: _ => true
  | _ :: _, [] => false
  | a :: as, b :: bs => a < b || (a == b && keyLess as bs)

/-- Member `std::map::emplace`: inserts the entry at its place in the order
unless the key is already there. -/
def emplace (k : Key) (v : Value) : ParsedTree → ParsedTree
  | [] => [(k, v)]
  | (k1, v1) :: rest =>
    if keyLess k k1 then (k, v) :: (k1, v1) :: rest
    else if keyLess k1 k then (k1, v1) :: emplace k v rest
    else (k1, v1) :: rest

/-- Struct `Parser::ParsingResult`.  `m_error` is assigned only on failure;
it is `none` while it holds the indeterminate value it is declared with. -/
structure ParsingResult where
  m_success : Bool
  m_tree : ParsedTree
  m_error : Option ParsingError
deriving DecidableEq

/-- States of the parser, `enum class StateKind`. -/
inductive StateKind where
  | Start
  | Section
  | SectionBegin
  | SectionEnd
  | Entry
  | NextEntry
  | EntrySeparator
  | Entries
  | Key
  | Value
  | KeyValueSeparator
  | TextValue
deriving DecidableEq

/-- Kinds of product, `enum class ProductKind`. -/
inductive ProductKind where
  | SectionBegin
  | SectionEnd
  | Entry
  | Key
  | Value
deriving DecidableEq

/-- Struct `Product`. -/
structure Product where
  m_kind : ProductKind
  m_value : List Nat
deriving DecidableEq

/-- Struct `Action::Fail`. -/
structure Failure where
  m_error : ParsingErrorKind
  m_state : StateKind
  m_receivedToken : TokenKind
  m_position : Int
deriving DecidableEq

/-- Struct `Action`, as the variant its `m_kind` selects. -/
inductive Action where
  | Produce (m_producedSymbols : List Product)
  | Expect (m_expectedProductions : List StateKind)
  | Fail (m_failure : Failure)
deriving DecidableEq

/-- Factory `Action::fail`; `error` is the defaulted last parameter. -/
def Action.fail (state : StateKind) (receivedToken : TokenKind) (position : Int)
    (error : ParsingErrorKind := ParsingErrorKind.UnexpectedTokenReceived) : Action :=
  Action.Fail ⟨error, state, receivedToken, position⟩

/-- The lambda `check` of `doTransition`: asks the lexer for its current
token and compares the kind. -/
def checkKind (kind : TokenKind) (lexer : Lexer) : Option (Bool × Lexer) :=
  match lexer.getCurrent with
  | some l => some (l.m_lastToken.m_kind == kind, l)
  | none => none

/-- The lambda `consume` of `doTransition`: `getCurrent`, then `getNext`; the
reference it returns is to `m_lastToken` of the lexer it leaves. -/
def consume (lexer : Lexer) : Option Lexer :=
  match lexer.getCurrent with
  | some l => l.getNext
  | none => none

/-- Body of `case StateKind::NextEntry`. -/
def caseNextEntry (lexer : Lexer) : Option (Action × Lexer) :=
  match checkKind TokenKind.EntrySeparator lexer with
  | some (true, l) => some (Action.Expect [StateKind.Entry], l)
  | some (false, l) => some (Action.Expect [], l)
  | none => none

/-- Body of `case StateKind::TextValue`, which falls through to `NextEntry`. -/
def caseTextValue (lexer : Lexer) : Option (Action × Lexer) :=
  match checkKind TokenKind.Value lexer with
  | some (true, l) =>
    match consume l with
    | some l1 => some (Action.Produce [⟨ProductKind.Value, l1.m_lastToken.m_value⟩], l1)
    | none => none
  | some (false, l) => caseNextEntry l
  | none => none

/-- Body of `case StateKind::Value`, which falls through to `TextValue`. -/
def caseValue (lexer : Lexer) : Option (Action × Lexer) :=
  match checkKind TokenKind.Value lexer with
  | some (true, l) => some (Action.Expect [StateKind.TextValue], l)
  | some (false, l) =>
    match checkKind TokenKind.SectionBegin l with
    | some (true, l1) => some (Action.Expect [StateKind.Section], l1)
    | some (false, l1) => caseTextValue l1
    | none => none
  | none => none

/-- Body of `case StateKind::KeyValueSeparator`, which falls through to
`Value`. -/
def caseKeyValueSeparator (lexer : Lexer) : Option (Action × Lexer) :=
  match checkKind TokenKind.KeyValueSeparator lexer with
  | some (true, l) =>
    match consume l with
    | some l1 => some (Action.Produce [], l1)
    | none => none
  | some (false, l) => caseValue l
  | none => none

/-- Body of `case StateKind::Key`, which falls through to
`KeyValueSeparator`. -/
def caseKey (lexer : Lexer) : Option (Action × Lexer) :=
  match checkKind TokenKind.Key lexer with
  | some (true, l) =>
    match consume l with
    | some l1 =>
      some (Action.Produce [⟨ProductKind.Entry, []⟩,
        ⟨ProductKind.Key, l1.m_lastToken.m_value⟩], l1)
    | none => none
  | some (false, l) => caseKeyValueSeparator l
  | none => none

/-- Body of `case StateKind::Entries`. -/
def caseEntries (lexer : Lexer) : Option (Action × Lexer) :=
  match checkKind TokenKind.Key lexer with
  | some (true, l) => some (Action.Expect [StateKind.Entry, StateKind.NextEntry], l)
  | some (false, l) => some (Action.Expect [], l)
  | none => none

/-- Body of `case StateKind::SectionEnd`, which falls through to `Entries`. -/
def caseSectionEnd (lexer : Lexer) : Option (Action × Lexer) :=
  match checkKind TokenKind.SectionEnd lexer with
  | some (true, l) =>
    match consume l with
    | some l1 => some (Action.Produce [⟨ProductKind.SectionEnd, []⟩], l1)
    | none => none
  | some (false, l) => caseEntries l
  | none => none

/-- Body of `case StateKind::SectionBegin`, which falls through to
`SectionEnd`. -/
def caseSectionBegin (lexer : Lexer) : Option (Action × Lexer) :=
  match checkKind TokenKind.SectionBegin lexer with
  | some (true, l) =>
    match consume l with
    | some l1 => some (Action.Produce [⟨ProductKind.SectionBegin, []⟩], l1)
    | none => none
  | some (false, l) => caseSectionEnd l
  | none => none

/-- The `switch (state)` of `doTransition`.  `StateKind::EntrySeparator` has
no case label: control leaves the switch and reaches the final
`Action::fail`, whose arguments are evaluated here in the order written. -/
def doSwitch (state : StateKind) (lexer : Lexer) : Option (Action × Lexer) :=
  match state with
  | StateKind.Start => some (Action.Expect [StateKind.Section], lexer)
  | StateKind.Section =>
    some (Action.Expect [StateKind.SectionBegin, StateKind.Entries, StateKind.SectionEnd], lexer)
  | StateKind.SectionBegin => caseSectionBegin lexer
  | StateKind.SectionEnd => caseSectionEnd lexer
  | StateKind.Entries => caseEntries lexer
  | StateKind.Entry =>
    some (Action.Expect [StateKind.Key, StateKind.KeyValueSeparator, StateKind.Value], lexer)
  | StateKind.Key => caseKey lexer
  | StateKind.KeyValueSeparator => caseKeyValueSeparator lexer
  | StateKind.Value => caseValue lexer
  | StateKind.TextValue => caseTextValue lexer
  | StateKind.NextEntry => caseNextEntry lexer
  | StateKind.EntrySeparator =>
    match lexer.getCurrent with
    | some l =>
      some (Action.fail state l.m_lastToken.m_kind (getPosition l.m_stream).1,
        { l with m_stream := (getPosition l.m_stream).2 })
    | none => none

/-- Function `doTransition`.  The arguments of `Action::fail` are evaluated in
the order written.  The language leaves the order open, and it decides only
`m_receivedToken` and `m_position` of the failure: an implementation that
evaluates them from right to left takes the position before the read that
`getCurrent` makes.  No statement on a failed parse says what these two
are. -/
def doTransition (state : StateKind) (lexer : Lexer) : Option (Action × Lexer) :=
  match checkKind TokenKind.ParseError lexer with
  | some (true, l) =>
    match l.getCurrent with
    | some l1 =>
      some (Action.fail state l1.m_lastToken.m_kind (getPosition l1.m_stream).1,
        { l1 with m_stream := (getPosition l1.m_stream).2 })
    | none => none
  | some (false, l) => doSwitch state l
  | none => none

/-- Function `makeParsingError`. -/
def makeParsingError (failure : Failure) : ParsingError :=
  ⟨failure.m_error, failure.m_position⟩

/-- Constant `Parser::s_categorySeparator`. -/
def s_categorySeparator : Nat := 0x3A

/-- Function `join`: every part followed by the glue. -/
def join (parts : List Key) (glue : List Nat) : Key :=
  parts.foldl (fun result part => result ++ part ++ glue) []

/-- State of the loop of `makeOutputTree`. -/
structure TreeState where
  tree : ParsedTree
  sectionsStack : List Key
  lastKey : Key
deriving DecidableEq

/-- One turn of the loop of `makeOutputTree`.  `pop_back` on an empty
`sectionsStack` (undefined in the source, which assumes a sequence of the
grammar) leaves it empty. -/
def treeStep (st : TreeState) (product : Product) : TreeState :=
  match product.m_kind with
  | ProductKind.SectionBegin =>
    let stack := st.sectionsStack ++ [st.lastKey]
    { st with sectionsStack := stack,
              tree := emplace (join stack [s_categorySeparator]) [] st.tree }
  | ProductKind.SectionEnd => { st with sectionsStack := st.sectionsStack.dropLast }
  | ProductKind.Entry => st
  | ProductKind.Key => { st with lastKey := product.m_value }
  | ProductKind.Value =>
    { st with tree := emplace (join st.sectionsStack [s_categorySeparator])
                        product.m_value st.tree }

/-- Function `makeOutputTree`. -/
def makeOutputTree (outputSequence : List Product) : ParsedTree :=
  (outputSequence.foldl treeStep ⟨[], [], []⟩).tree

/-- The loop of `Parser::parse`: `states` is the stack, top first;
`outputSequence` the products so far.  An `Expect` pushes its states last to
first, so that the first is on top.  The fuel counts the turns of the loop;
`none` is a loop that takes more turns than that, or a lexer that hangs. -/
def parseLoop : Nat → List StateKind → List Product → Lexer → Option ParsingResult
  | _, [], outputSequence, _ =>
    some ⟨true, makeOutputTree outputSequence, none⟩
  | 0, _ :: _, _, _ => none
  | fuel + 1, state :: states, outputSequence, lexer =>
    match doTransition state lexer with
    | some (Action.Expect expected, l) =>
      parseLoop fuel (expected ++ states) outputSequence l
    | some (Action.Produce produced, l) =>
      parseLoop fuel states (outputSequence ++ produced) l
    | some (Action.Fail failure, _) =>
      some ⟨false, [], some (makeParsingError failure)⟩
    | none => none

/-- Turns of the loop of `Parser::parse` granted to an input.  A turn either
fails, or reads a token that is neither an error nor the end and so takes a
byte of the input while it pushes at most three states, or leaves the input
and replaces the state it pops by states that need fewer turns; eight turns
for each byte and eight more are enough. -/
def parseFuel (input : List Nat) : Nat := 8 * input.length + 8

/-- Method `Parser::parse` of a parser made on a fresh stream over `input`;
`none` when the call would not return. -/
def parse (input : List Nat) : Option ParsingResult :=
  parseLoop (parseFuel input) [StateKind.Start] [] (Lexer.new (IStream.ofBytes input))

/-! ## Observations used by the statements -/

/-- The token a test obtains from `Lexer lexer(ss); lexer.getCurrent()` on a
fresh stream over `input`. -/
def firstToken (input : List Nat) : Option Token :=
  ((Lexer.new (IStream.ofBytes input)).getCurrent).map Lexer.m_lastToken

/-- The token obtained by a second `getCurrent()` right after the first. -/
def secondToken (input : List Nat) : Option Token :=
  (((Lexer.new (IStream.ofBytes input)).getCurrent).bind Lexer.getCurrent).map
    Lexer.m_lastToken

/-- A byte of the class `[A-Za-z0-9_]`. -/
def KeyRunChar (c : Nat) : Prop :=
  (0x41 ≤ c ∧ c ≤ 0x5A) ∨ (0x61 ≤ c ∧ c ≤ 0x7A) ∨ (0x30 ≤ c ∧ c ≤ 0x39) ∨ c = 0x5F

/-- One call on the lexer: `getCurrent` for `true`, `getNext` for `false`. -/
def Lexer.call (current : Bool) (l : Lexer) : Option Lexer :=
  if current then l.getCurrent else l.getNext

/-- A sequence of calls of `getCurrent` and `getNext`, one after the other. -/
def Lexer.calls : List Bool → Lexer → Option Lexer
  | [], l => some l
  | c :: cs, l => (l.call c).bind (Lexer.calls cs)

/-! ## The body of a quoted value -/

/-- A byte of the class `[0-9a-fA-F]`. -/
def HexDigit (c : Nat) : Prop :=
  (0x30 ≤ c ∧ c ≤ 0x39) ∨ (0x61 ≤ c ∧ c ≤ 0x66) ∨ (0x41 ≤ c ∧ c ≤ 0x46)

/-- The value that the loop of `makeCodepoint` adds for a digit, before the
shift: `digit - '0'`, `digit - 'a'` or `digit - 'A'`. -/
def hexValue (digit : Nat) : Int :=
  if 0x30 ≤ digit ∧ digit ≤ 0x39 then (digit : Int) - 0x30
  else if 0x61 ≤ digit ∧ digit ≤ 0x66 then (digit : Int) - 0x61
  else (digit : Int) - 0x41

/-- A byte that stands for itself in a quoted value: not the quote, not the
backslash, and no control byte of `std::iscntrl`. -/
def PlainChar (c : Nat) : Prop := c ≠ 0x22 ∧ c ≠ 0x5C ∧ iscntrl c = false

/-- The byte that the escape of the letter `e` stands for: a line feed for
`n`, a carriage return for `r`, the backslash for the backslash. -/
def escapedByte (e : Nat) : Nat :=
  if e = 0x6E then 0x0A else if e = 0x72 then 0x0D else e

/-- A piece of the body of a quoted value: a plain byte, a backslash with one
of the letters `n`, `r`, backslash, or a backslash, `x` and four bytes. -/
inductive Piece where
  | plain (c : Nat)
  | simple (e : Nat)
  | hex (h1 h2 h3 h4 : Nat)

/-- The piece is well formed. -/
def Piece.Valid : Piece → Prop
  | Piece.plain c => PlainChar c
  | Piece.simple e => e = 0x6E ∨ e = 0x72 ∨ e = 0x5C
  | Piece.hex h1 h2 h3 h4 => HexDigit h1 ∧ HexDigit h2 ∧ HexDigit h3 ∧ HexDigit h4

/-- The bytes of the piece in the input. -/
def Piece.source : Piece → List Nat
  | Piece.plain c => [c]
  | Piece.simple e => [0x5C, e]
  | Piece.hex h1 h2 h3 h4 => [0x5C, 0x78, h1, h2, h3, h4]

/-- The bytes that the embedding appends to the text of the value for the
piece; for four hexadecimal digits, the bytes that `makeCodeunits` lists for
the code point that `makeCodepoint` makes of them (on the code, as many
bytes of a dead array). -/
def Piece.decoded : Piece → List Nat
  | Piece.plain c => [c]
  | Piece.simple e => [escapedByte e]
  | Piece.hex h1 h2 h3 h4 =>
    match makeCodepoint [h1, h2, h3, h4] with
    | Except.ok codepoint => makeCodeunits codepoint
    | Except.error _ => []

/-- The bytes of a sequence of pieces in the input. -/
def sourceOf : List Piece → List Nat
  | [] => []
  | p :: ps => p.source ++ sourceOf ps

/-- The text made of a sequence of pieces. -/
def decodedOf : List Piece → List Nat
  | [] => []
  | p :: ps => p.decoded ++ decodedOf ps

/-- What follows a backslash is no escape of the language: nothing or a byte
other than `n`, `r`, backslash and `x`; or `x` and four bytes one of which is
no hexadecimal digit; or `x` and fewer than four bytes, at the end of the
data. -/
def MalformedEscape (tail : List Nat) : Prop :=
  tail = [] ∨
  (∃ e rest, tail = e :: rest ∧ e ≠ 0x6E ∧ e ≠ 0x72 ∧ e ≠ 0x5C ∧ e ≠ 0x78) ∨
  (∃ four rest, tail = 0x78 :: (four ++ rest) ∧ four.length = 4 ∧ ∃ c ∈ four, ¬ HexDigit c) ∨
  (∃ few, tail = 0x78 :: few ∧ few.length < 4)

/-- The bytes hold a control byte below 0x20 with no quote before it. -/
def Blocked (bytes : List Nat) : Prop :=
  ∃ pre c post, bytes = pre ++ c :: post ∧ 0x22 ∉ pre ∧ c < 0x20

/-! ## Streams behind a byte order mark -/

/-- The tokens returned by a first `getCurrent()` and the `getNext()` calls
after it, `n` of them, on a fresh stream over `input`: the last of them. -/
def tokenAfter (n : Nat) (input : List Nat) : Option Token :=
  ((Lexer.new (IStream.ofBytes input)).calls (true :: List.replicate n false)).map
    Lexer.m_lastToken

/-! ## Invariants and measures of the termination argument -/

/-- Invariant of the stream states the lexer goes through: the read offset is
inside the data, and `failbit` is only ever set together with `eofbit`. -/
def IStream.Inv (s : IStream) : Prop :=
  s.pos ≤ s.data.length ∧ (s.failbit = true → s.eofbit = true)

/-- The state `t` is a later state of the stream `s`: the same data, an
offset not before that of `s`, and the invariant. -/
def IStream.Reach (s t : IStream) : Prop :=
  t.data = s.data ∧ s.pos ≤ t.pos ∧ t.Inv

/-- The routine ends, by a value or by an exception, in a later state of the
stream `s`; a value and its state satisfy `Q`. -/
def Step.Ends {α : Type} (s : IStream) (Q : α → IStream → Prop) : Step α → Prop
  | Step.ok a t => s.Reach t ∧ Q a t
  | Step.thrown _ t => s.Reach t
  | Step.hang => False

/-- What a token says about the bytes taken to make it: a token that is
neither an error nor the end of the data took at least one byte. -/
def Token.Took (s : IStream) (tok : Token) (t : IStream) : Prop :=
  tok.m_kind = TokenKind.ParseError ∨ tok.m_kind = TokenKind.ParseEnd ∨ s.pos < t.pos

/-- Bytes of the data that the lexer has not read yet. -/
def Lexer.left (l : Lexer) : Nat := l.m_stream.data.length - l.m_stream.pos

/-- Turns of the parse loop a state needs at most once the lexer is at the end
of the data. -/
def StateKind.weight : StateKind → Nat
  | StateKind.Start => 5
  | StateKind.Section => 4
  | StateKind.Entry => 4
  | _ => 1

/-- Weight of a stack of states. -/
def stackWeight (states : List StateKind) : Nat := (states.map StateKind.weight).sum

/-- Weight of the states an action pushes. -/
def Action.pushed : Action → Nat
  | Action.Expect expected => stackWeight expected
  | _ => 0

/-- The lexer `l1` is the lexer `l` after some calls of `getCurrent` and
`getNext`: a later state of the stream; and a finished lexer stays as it
is. -/
def Lexer.Later (l l1 : Lexer) : Prop :=
  l.m_stream.Reach l1.m_stream ∧ (l.isFinished = true → l1 = l)

/-- What a case of the switch of `doTransition` returns: it returns, the
states it pushes weigh at most five, and none is pushed once the lexer is
finished. -/
def CaseSound (l : Lexer) : Option (Action × Lexer) → Prop
  | some (a, l1) => l.Later l1 ∧ a.pushed ≤ 5 ∧ (l.isFinished = true → a.pushed = 0)
  | none => False

/-- What the switch of `doTransition` returns: it returns; unless it fails,
the states it pushes weigh at most five, and less than the state it is called
for once the lexer is finished. -/
def SwitchSound (state : StateKind) (l : Lexer) : Option (Action × Lexer) → Prop
  | some (Action.Fail _, _) => True
  | some (a, l1) =>
    l.Later l1 ∧ a.pushed ≤ 5 ∧ (l.isFinished = true → a.pushed < state.weight)
  | none => False

/-- What `doTransition` returns: it returns; unless it fails, the bytes left
to the lexer and the states pushed, weighed together, are less than before. -/
def TransitionSound (state : StateKind) (l : Lexer) : Option (Action × Lexer) → Prop
  | some (Action.Fail _, _) => True
  | some (a, l1) =>
    l1.m_stream.Inv ∧ 5 * l1.left + a.pushed < 5 * l.left + state.weight
  | none => False

/-! ## The stream at a known place of its data -/

theorem getElem?_of_drop {data : List Nat} {pos c : Nat} {rest : List Nat}
    (h : data.drop pos = c :: rest) : data[pos]? = some c := by
  have := List.head?_drop data pos
  rw [h] at this
  simpa using this.symm

theorem drop_succ_of_drop {data : List Nat} {pos c : Nat} {rest : List Nat}
    (h : data.drop pos = c :: rest) : data.drop (pos + 1) = rest := by
  have : data.drop (pos + 1) = (data.drop pos).drop 1 := by
    rw [List.drop_drop, Nat.add_comm]
  rw [this, h]; rfl

theorem getElem?_of_drop_nil {data : List Nat} {pos : Nat}
    (h : data.drop pos = []) : data[pos]? = none := by
  have := List.head?_drop data pos
  rw [h] at this
  simpa using this.symm

theorem length_le_of_drop {data : List Nat} {pos : Nat} {w rest : List Nat}
    (h : data.drop pos = w ++ rest) : w.length + rest.length ≤ data.length := by
  have := congrArg List.length h
  simp at this
  omega

theorem drop_of_eq_append {data pre post : List Nat} (h : data = pre ++ post) :
    data.drop pre.length = post := by
  subst h; simp

theorem peek_at {data : List Nat} {pos c : Nat} {rest : List Nat}
    (h : data.drop pos = c :: rest) :
    IStream.peek ⟨data, pos, false, false⟩ = (c, ⟨data, pos, false, false⟩) := by
  simp [IStream.peek, IStream.good, getElem?_of_drop h]

theorem peek_end {data : List Nat} {pos : Nat} (h : data.drop pos = []) :
    IStream.peek ⟨data, pos, false, false⟩ = (eofChar, ⟨data, pos, true, false⟩) := by
  simp [IStream.peek, IStream.good, getElem?_of_drop_nil h]

theorem getChar_at {data : List Nat} {pos c : Nat} {rest : List Nat}
    (h : data.drop pos = c :: rest) :
    getChar ⟨data, pos, false, false⟩ = Step.ok c ⟨data, pos + 1, false, false⟩ := by
  simp [getChar, IStream.get, IStream.good, getElem?_of_drop h]

/-! ## Skipping what is ignored -/

theorem isIgnored_of_isspace {c : Nat} (h : isspace c = true) : isIgnored c = true := by
  simp [isIgnored, h]

theorem isIgnored_ne_bom {x : Nat} (h : isIgnored x = true) : x ≠ 0xEF := by
  intro hx; subst hx; revert h; decide

/-- The loop of `skipIgnored` runs over ignored bytes `w` and stops before the
byte `c` that is not ignored. -/
theorem skipIgnoredLoop_run (c : Nat) (rest : List Nat) (hc : isIgnored c = false) :
    ∀ (w : List Nat) (fuel : Nat) (data : List Nat) (pos : Nat),
      (∀ x ∈ w, isIgnored x = true) → w.length < fuel →
      data.drop pos = w ++ c :: rest →
      skipIgnoredLoop fuel (peekChar ⟨data, pos, false, false⟩).1
          (peekChar ⟨data, pos, false, false⟩).2
        = Step.ok () ⟨data, pos + w.length, false, false⟩ := by
  intro w
  induction w with
  | nil =>
    intro fuel data pos _ hf h
    obtain ⟨f, rfl⟩ : ∃ f, fuel = f + 1 := ⟨fuel - 1, by simp at hf; omega⟩
    simp at h
    simp [peekChar, peek_at h, skipIgnoredLoop, hc]
  | cons x w ih =>
    intro fuel data pos hw hf h
    obtain ⟨f, rfl⟩ : ∃ f, fuel = f + 1 := ⟨fuel - 1, by simp at hf; omega⟩
    have hx : isIgnored x = true := hw x (by simp)
    have h1 : data.drop pos = x :: (w ++ c :: rest) := by simpa using h
    have h2 := drop_succ_of_drop h1
    have := ih f data (pos + 1) (fun y hy => hw y (by simp [hy])) (by simp at hf; omega) h2
    simp [peekChar, peek_at h1, skipIgnoredLoop, hx, getChar_at h1, Step.bind]
    simp [peekChar] at this
    rw [this]
    simp; omega

/-- The loop of `skipIgnored` runs over ignored bytes `w` up to the end of the
data, where the last `peek` raises `eofbit`. -/
theorem skipIgnoredLoop_end :
    ∀ (w : List Nat) (fuel : Nat) (data : List Nat) (pos : Nat),
      (∀ x ∈ w, isIgnored x = true) → w.length < fuel →
      data.drop pos = w →
      skipIgnoredLoop fuel (peekChar ⟨data, pos, false, false⟩).1
          (peekChar ⟨data, pos, false, false⟩).2
        = Step.ok () ⟨data, pos + w.length, true, false⟩ := by
  intro w
  induction w with
  | nil =>
    intro fuel data pos _ hf h
    obtain ⟨f, rfl⟩ : ∃ f, fuel = f + 1 := ⟨fuel - 1, by simp at hf; omega⟩
    have he : isIgnored eofChar = false := by decide
    simp [peekChar, peek_end h, skipIgnoredLoop, he]
  | cons x w ih =>
    intro fuel data pos hw hf h
    obtain ⟨f, rfl⟩ : ∃ f, fuel = f + 1 := ⟨fuel - 1, by simp at hf; omega⟩
    have hx : isIgnored x = true := hw x (by simp)
    have h2 := drop_succ_of_drop h
    have := ih f data (pos + 1) (fun y hy => hw y (by simp [hy])) (by simp at hf; omega) h2
    simp [peekChar, peek_at h, skipIgnoredLoop, hx, getChar_at h, Step.bind]
    simp [peekChar] at this
    rw [this]
    simp; omega

theorem skipBom_noop {data : List Nat} {pos x : Nat} {t : List Nat}
    (h : data.drop pos = x :: t) (hx : x ≠ 0xEF) :
    skipBom ⟨data, pos, false, false⟩ = Step.ok () ⟨data, pos, false, false⟩ := by
  simp [skipBom, check, peekChar, peek_at h, hx]

/-- Function `readToken` on ignored bytes `w` followed by a byte `c` that
starts a token: it skips `w` and dispatches on `c`. -/
theorem readToken_skips {data : List Nat} {pos : Nat} {w : List Nat} {c : Nat}
    {rest : List Nat} (hw : ∀ x ∈ w, isIgnored x = true) (hc : isIgnored c = false)
    (hbom : c ≠ 0xEF) (h : data.drop pos = w ++ c :: rest) :
    readToken ⟨data, pos, false, false⟩
      = readTokenDispatch ⟨data, pos + w.length, false, false⟩ := by
  have hlen : w.length < data.length + 1 := by
    have := length_le_of_drop h
    omega
  have hskip : skipIgnored ⟨data, pos, false, false⟩
      = Step.ok () ⟨data, pos + w.length, false, false⟩ :=
    skipIgnoredLoop_run c rest hc w _ data pos hw hlen h
  have hbomskip : skipBom ⟨data, pos, false, false⟩ = Step.ok () ⟨data, pos, false, false⟩ := by
    rcases w with _ | ⟨x, w⟩
    · exact skipBom_noop (by simpa using h) hbom
    · exact skipBom_noop (by simpa using h) (isIgnored_ne_bom (hw x (by simp)))
  unfold readToken
  simp only [getPosition, IStream.tellg, IStream.good, Bool.not_false, Bool.and_self, if_true]
  split
  · simp [hbomskip, Step.bind, hskip, IStream.good]
  · simp [Step.bind, hskip, IStream.good]

/-- Function `readToken` past the start of the data, on ignored bytes `w` that
end the data: the token is `ParseEnd`. -/
theorem readToken_at_end {data : List Nat} {pos : Nat} {w : List Nat}
    (hw : ∀ x ∈ w, isIgnored x = true) (hpos : pos ≠ 0) (h : data.drop pos = w) :
    readToken ⟨data, pos, false, false⟩
      = Step.ok ⟨TokenKind.ParseEnd, []⟩ ⟨data, pos + w.length, true, false⟩ := by
  have hlen : w.length < data.length + 1 := by
    have := @length_le_of_drop data pos w [] (by simpa using h)
    omega
  have hskip : skipIgnored ⟨data, pos, false, false⟩
      = Step.ok () ⟨data, pos + w.length, true, false⟩ :=
    skipIgnoredLoop_end w _ data pos hw hlen h
  have hp : ((pos : Int) == 0) = false := by simp [hpos]
  simp [readToken, getPosition, IStream.tellg, IStream.good, hp, Step.bind, hskip]

/-! ## Single tokens -/

theorem dispatch_sectionBegin {data : List Nat} {pos : Nat} {rest : List Nat}
    (h : data.drop pos = s_sectionBegin :: rest) :
    readTokenDispatch ⟨data, pos, false, false⟩
      = Step.ok ⟨TokenKind.KeyValueSeparator, [s_sectionBegin]⟩
          ⟨data, pos + 1, false, false⟩ := by
  simp [readTokenDispatch, check, peekChar, peek_at h, readSectionBegin, expect,
    getChar_at h, Step.bind]

theorem dispatch_sectionEnd {data : List Nat} {pos : Nat} {rest : List Nat}
    (h : data.drop pos = s_sectionEnd :: rest) :
    readTokenDispatch ⟨data, pos, false, false⟩
      = Step.ok ⟨TokenKind.KeyValueSeparator, [s_sectionEnd]⟩
          ⟨data, pos + 1, false, false⟩ := by
  have h1 : (s_sectionEnd == s_sectionBegin) = false := by decide
  have h2 : isKeyBeginner s_sectionEnd = false := by decide
  have h3 : (s_sectionEnd == s_keySeparator) = false := by decide
  have h4 : (s_sectionEnd == s_entrySeparator) = false := by decide
  simp [readTokenDispatch, check, checkIsKey, peekChar, peek_at h, readSectionEnd, expect,
    getChar_at h, Step.bind, h1, h2, h3, h4]

/-! ## The lexer seen from the parser -/

theorem getCurrent_of_readToken {l : Lexer} {t : Token} {s : IStream}
    (hfin : l.m_lastToken.m_kind ≠ TokenKind.ParseEnd)
    (h : readToken l.m_stream = Step.ok t s) : l.getCurrent = some ⟨s, t⟩ := by
  simp [Lexer.getCurrent, Lexer.getNext, Lexer.isFinished, hfin, h]

theorem getCurrent_finished {l : Lexer}
    (hfin : l.m_lastToken.m_kind = TokenKind.ParseEnd) : l.getCurrent = some l := by
  simp [Lexer.getCurrent, Lexer.getNext, Lexer.isFinished, hfin, Token.toBool]

theorem checkKind_of_getCurrent {l l1 : Lexer} {k0 : TokenKind} (k : TokenKind)
    (h : l.getCurrent = some l1) (hk : l1.m_lastToken.m_kind = k0) :
    checkKind k l = some (decide (k0 = k), l1) := by
  cases hd : decide (k0 = k) <;> simp_all [checkKind]

theorem checkKind_finished {l : Lexer} (k : TokenKind)
    (hfin : l.m_lastToken.m_kind = TokenKind.ParseEnd) :
    checkKind k l = some (decide (TokenKind.ParseEnd = k), l) :=
  checkKind_of_getCurrent k (getCurrent_finished hfin) hfin

theorem doTransition_of_getCurrent {l l1 : Lexer} (state : StateKind)
    (h : l.getCurrent = some l1) (hk : l1.m_lastToken.m_kind ≠ TokenKind.ParseError) :
    doTransition state l = doSwitch state l1 := by
  have : (l1.m_lastToken.m_kind == TokenKind.ParseError) = false := by simp [hk]
  simp [doTransition, checkKind, h, this]

/-- Three tokens that are not errors, the third being the end of the data,
are a successful parse with an empty tree. -/
theorem parseLoop_three_tokens (fuel : Nat) (l0 l1 l2 l3 : Lexer)
    (h1 : l0.getCurrent = some l1) (h2 : l1.getCurrent = some l2)
    (h3 : l2.getCurrent = some l3)
    (k1 : l1.m_lastToken.m_kind ≠ TokenKind.ParseError)
    (k2 : l2.m_lastToken.m_kind ≠ TokenKind.ParseError)
    (k3 : l3.m_lastToken.m_kind = TokenKind.ParseEnd) :
    parseLoop (fuel + 6) [StateKind.Start] [] l0 = some ⟨true, [], none⟩ := by
  have h4 := getCurrent_finished k3
  have k4 : l3.m_lastToken.m_kind ≠ TokenKind.ParseError := by simp [k3]
  have t1 := doTransition_of_getCurrent StateKind.Start h1 k1
  have t2 := doTransition_of_getCurrent StateKind.Section h2 k2
  have t3 := doTransition_of_getCurrent StateKind.SectionBegin h3 k4
  have t4 := doTransition_of_getCurrent StateKind.Entries h4 k4
  have t5 := doTransition_of_getCurrent StateKind.SectionEnd h4 k4
  simp [parseLoop, t1, t2, t3, t4, t5, doSwitch, caseSectionBegin, caseSectionEnd,
    caseEntries, checkKind_finished _ k3, makeOutputTree]

/-! ## Keys -/

theorem keyChar_continues {x : Nat} (h : isKeyInternal x = true) :
    (x != s_keySeparator && !isIgnored x) = true := by
  simp only [isKeyInternal, isalpha, isdigit, isIgnored, isspace, iscntrl, s_keySeparator,
    Bool.or_eq_true, Bool.and_eq_true, decide_eq_true_eq, beq_iff_eq, bne_iff_ne, ne_eq,
    Bool.not_eq_true', Bool.or_eq_false_iff, decide_eq_false_iff_not, beq_eq_false_iff_ne,
    Bool.and_eq_false_iff] at h ⊢
  omega

theorem keyChar_ne_bom {x : Nat} (h : isKeyInternal x = true) : x ≠ 0xEF := by
  intro hx; subst hx; revert h; decide

theorem keyChar_not_ignored {x : Nat} (h : isKeyInternal x = true) : isIgnored x = false := by
  have := keyChar_continues h
  simp at this
  exact this.2

theorem keyChar_ne_sectionBegin {x : Nat} (h : isKeyInternal x = true) :
    (x == s_sectionBegin) = false := by
  simp only [beq_eq_false_iff_ne]
  intro hx; subst hx; revert h; decide

theorem isKeyInternal_of_keyRunChar {x : Nat} (h : KeyRunChar x) : isKeyInternal x = true := by
  simp only [isKeyInternal, isalpha, isdigit, Bool.or_eq_true, Bool.and_eq_true,
    decide_eq_true_eq, beq_iff_eq]
  unfold KeyRunChar at h
  omega

/-- The loop of `readKey` runs over key bytes `r` and stops before a byte `t`
that is the key separator or is ignored. -/
theorem readKeyLoop_run (t : Nat) (rest : List Nat)
    (ht : (t != s_keySeparator && !isIgnored t) = false) :
    ∀ (r buffer : List Nat) (fuel : Nat) (data : List Nat) (pos : Nat),
      (∀ x ∈ r, isKeyInternal x = true) → r.length < fuel →
      data.drop pos = r ++ t :: rest →
      readKeyLoop fuel (peekChar ⟨data, pos, false, false⟩).1 buffer
          (peekChar ⟨data, pos, false, false⟩).2
        = Step.ok ⟨TokenKind.Key, buffer ++ r⟩ ⟨data, pos + r.length, false, false⟩ := by
  intro r
  induction r with
  | nil =>
    intro buffer fuel data pos _ hf h
    obtain ⟨f, rfl⟩ : ∃ f, fuel = f + 1 := ⟨fuel - 1, by simp at hf; omega⟩
    simp at h
    simp only [peekChar, peek_at h, readKeyLoop, ht]
    simp
  | cons x r ih =>
    intro buffer fuel data pos hr hf h
    obtain ⟨f, rfl⟩ : ∃ f, fuel = f + 1 := ⟨fuel - 1, by simp at hf; omega⟩
    have hx : isKeyInternal x = true := hr x (by simp)
    have h1 : data.drop pos = x :: (r ++ t :: rest) := by simpa using h
    have h2 := drop_succ_of_drop h1
    have := ih (buffer ++ [x]) f data (pos + 1) (fun y hy => hr y (by simp [hy]))
      (by simp at hf; omega) h2
    simp only [peekChar, peek_at h1, readKeyLoop, keyChar_continues hx, hx, getChar_at h1,
      Step.bind]
    simp only [peekChar] at this
    simp [this]
    omega

theorem dispatch_key {data : List Nat} {pos c : Nat} {rest : List Nat}
    (h : data.drop pos = c :: rest) (hc : isKeyInternal c = true) :
    readTokenDispatch ⟨data, pos, false, false⟩ = readKey ⟨data, pos, false, false⟩ := by
  have hb : isKeyBeginner c = true := hc
  simp [readTokenDispatch, check, checkIsKey, peekChar, peek_at h,
    keyChar_ne_sectionBegin hc, hb]

/-! ## Failures of the transition function -/

theorem caseNextEntry_fail {l l1 : Lexer} {f : Failure}
    (h : caseNextEntry l = some (Action.Fail f, l1)) :
    f.m_error = ParsingErrorKind.UnexpectedTokenReceived := by
  unfold caseNextEntry at h
  split at h <;> simp at h

theorem caseTextValue_fail {l l1 : Lexer} {f : Failure}
    (h : caseTextValue l = some (Action.Fail f, l1)) :
    f.m_error = ParsingErrorKind.UnexpectedTokenReceived := by
  unfold caseTextValue at h
  split at h
  · split at h <;> simp at h
  · exact caseNextEntry_fail h
  · simp at h

theorem caseValue_fail {l l1 : Lexer} {f : Failure}
    (h : caseValue l = some (Action.Fail f, l1)) :
    f.m_error = ParsingErrorKind.UnexpectedTokenReceived := by
  unfold caseValue at h
  split at h
  · simp at h
  · split at h
    · simp at h
    · exact caseTextValue_fail h
    · simp at h
  · simp at h

theorem caseKeyValueSeparator_fail {l l1 : Lexer} {f : Failure}
    (h : caseKeyValueSeparator l = some (Action.Fail f, l1)) :
    f.m_error = ParsingErrorKind.UnexpectedTokenReceived := by
  unfold caseKeyValueSeparator at h
  split at h
  · split at h <;> simp at h
  · exact caseValue_fail h
  · simp at h

theorem caseKey_fail {l l1 : Lexer} {f : Failure}
    (h : caseKey l = some (Action.Fail f, l1)) :
    f.m_error = ParsingErrorKind.UnexpectedTokenReceived := by
  unfold caseKey at h
  split at h
  · split at h <;> simp at h
  · exact caseKeyValueSeparator_fail h
  · simp at h

theorem caseEntries_fail {l l1 : Lexer} {f : Failure}
    (h : caseEntries l = some (Action.Fail f, l1)) :
    f.m_error = ParsingErrorKind.UnexpectedTokenReceived := by
  unfold caseEntries at h
  split at h <;> simp at h

theorem caseSectionEnd_fail {l l1 : Lexer} {f : Failure}
    (h : caseSectionEnd l = some (Action.Fail f, l1)) :
    f.m_error = ParsingErrorKind.UnexpectedTokenReceived := by
  unfold caseSectionEnd at h
  split at h
  · split at h <;> simp at h
  · exact caseEntries_fail h
  · simp at h

theorem caseSectionBegin_fail {l l1 : Lexer} {f : Failure}
    (h : caseSectionBegin l = some (Action.Fail f, l1)) :
    f.m_error = ParsingErrorKind.UnexpectedTokenReceived := by
  unfold caseSectionBegin at h
  split at h
  · split at h <;> simp at h
  · exact caseSectionEnd_fail h
  · simp at h

theorem doSwitch_fail {state : StateKind} {l l1 : Lexer} {f : Failure}
    (h : doSwitch state l = some (Action.Fail f, l1)) :
    f.m_error = ParsingErrorKind.UnexpectedTokenReceived := by
  unfold doSwitch at h
  split at h
  · simp at h
  · simp at h
  · exact caseSectionBegin_fail h
  · exact caseSectionEnd_fail h
  · exact caseEntries_fail h
  · simp at h
  · exact caseKey_fail h
  · exact caseKeyValueSeparator_fail h
  · exact caseValue_fail h
  · exact caseTextValue_fail h
  · exact caseNextEntry_fail h
  · split at h
    · simp [Action.fail] at h
      rw [← h.1]
    · simp at h

/-- Every `Fail` action of `doTransition` carries the defaulted kind of error,
`UnexpectedTokenReceived`. -/
theorem doTransition_fail {state : StateKind} {l l1 : Lexer} {f : Failure}
    (h : doTransition state l = some (Action.Fail f, l1)) :
    f.m_error = ParsingErrorKind.UnexpectedTokenReceived := by
  unfold doTransition at h
  split at h
  · split at h
    · simp [Action.fail] at h
      rw [← h.1]
    · simp at h
  · exact doSwitch_fail h
  · simp at h

/-- What the loop of `Parser::parse` returns when it fails: no tree, and an
error of kind `UnexpectedTokenReceived`. -/
theorem parseLoop_failure :
    ∀ (fuel : Nat) (states : List StateKind) (out : List Product) (l : Lexer)
      (r : ParsingResult),
      parseLoop fuel states out l = some r → r.m_success = false →
      r.m_tree = [] ∧
        ∃ e, r.m_error = some e ∧ e.m_kind = ParsingErrorKind.UnexpectedTokenReceived := by
  intro fuel
  induction fuel with
  | zero =>
    intro states out l r h hf
    cases states with
    | nil =>
      simp [parseLoop] at h
      subst h
      simp at hf
    | cons st states => simp [parseLoop] at h
  | succ n ih =>
    intro states out l r h hf
    cases states with
    | nil =>
      simp [parseLoop] at h
      subst h
      simp at hf
    | cons st states =>
      simp only [parseLoop] at h
      split at h
      · exact ih _ _ _ _ h hf
      · exact ih _ _ _ _ h hf
      · rename_i failure l1 heq
        simp at h
        subst h
        exact ⟨rfl, _, rfl, doTransition_fail heq⟩
      · simp at h

/-! ## Every routine of the lexer returns or throws -/

theorem reach_refl {s : IStream} (h : s.Inv) : s.Reach s := ⟨rfl, Nat.le_refl _, h⟩

theorem reach_trans {s t u : IStream} (h1 : s.Reach t) (h2 : t.Reach u) : s.Reach u :=
  ⟨h2.1.trans h1.1, Nat.le_trans h1.2.1 h2.2.1, h2.2.2⟩

theorem ends_bind {α β : Type} {s : IStream} {Q : α → IStream → Prop}
    {R : β → IStream → Prop} {x : Step α} {f : α → IStream → Step β}
    (hx : Step.Ends s Q x)
    (hf : ∀ a t, s.Reach t → Q a t → Step.Ends t R (f a t)) :
    Step.Ends s R (x.bind f) := by
  cases x with
  | ok a t =>
    have h := hf a t hx.1 hx.2
    simp only [Step.bind]
    cases hy : f a t with
    | ok b u => rw [hy] at h; exact ⟨reach_trans hx.1 h.1, h.2⟩
    | thrown m u => rw [hy] at h; exact reach_trans hx.1 h
    | hang => rw [hy] at h; exact h
  | thrown m t => exact hx
  | hang => exact hx

theorem ends_mono {α : Type} {s : IStream} {Q R : α → IStream → Prop} {x : Step α}
    (hx : Step.Ends s Q x) (h : ∀ a t, s.Reach t → Q a t → R a t) : Step.Ends s R x := by
  cases x with
  | ok a t => exact ⟨hx.1, h a t hx.1 hx.2⟩
  | thrown m t => exact hx
  | hang => exact hx

theorem ends_from {α : Type} {s t : IStream} {Q : α → IStream → Prop} {x : Step α}
    (hst : s.Reach t) (hx : Step.Ends t Q x) : Step.Ends s Q x := by
  cases x with
  | ok a u => exact ⟨reach_trans hst hx.1, hx.2⟩
  | thrown m u => exact reach_trans hst hx
  | hang => exact hx

theorem eof_of_not_good {s : IStream} (h : s.Inv) (hg : ¬ s.good = true) :
    s.eofbit = true := by
  obtain ⟨data, pos, eofbit, failbit⟩ := s
  obtain ⟨_, h2⟩ := h
  cases eofbit <;> cases failbit <;> simp_all [IStream.good]

theorem flags_of_good {s : IStream} (hg : s.good = true) :
    s.eofbit = false ∧ s.failbit = false := by
  obtain ⟨data, pos, eofbit, failbit⟩ := s
  cases eofbit <;> cases failbit <;> simp_all [IStream.good]

theorem lt_length_of_getElem? {data : List Nat} {pos c : Nat} (h : data[pos]? = some c) :
    pos < data.length := by
  by_contra hn
  have := List.getElem?_eq_none (l := data) (n := pos) (by omega)
  rw [this] at h; cases h

theorem peek_reach {s : IStream} (h : s.Inv) : s.Reach s.peek.2 := by
  have h1 := h.1
  have h2 := h.2
  unfold IStream.peek
  split
  · split
    · exact ⟨rfl, Nat.le_refl _, h1, h2⟩
    · exact ⟨rfl, Nat.le_refl _, h1, fun _ => rfl⟩
  · rename_i hg
    have he : s.eofbit = true := eof_of_not_good h hg
    exact ⟨rfl, Nat.le_refl _, h1, fun _ => he⟩

theorem peek_pos (s : IStream) : s.peek.2.pos = s.pos := by
  unfold IStream.peek; split
  · split <;> rfl
  · rfl

theorem peek_data (s : IStream) : s.peek.2.data = s.data := by
  unfold IStream.peek; split
  · split <;> rfl
  · rfl

/-- A `getChar` right after a `peek`: it throws, or takes a byte and leaves
the stream good. -/
theorem getChar_after_peek {s : IStream} (h : s.Inv) :
    Step.Ends s (fun _ t => s.pos < t.pos ∧ t.good = true) (getChar s.peek.2) := by
  have h1 := h.1
  by_cases hg : s.good = true
  · obtain ⟨he, hfl⟩ := flags_of_good hg
    cases hd : s.data[s.pos]? with
    | some c =>
      have hlt := lt_length_of_getElem? hd
      simp only [IStream.peek, getChar, he, IStream.get, hg, hd, if_true, Bool.false_eq_true,
        if_false]
      exact ⟨⟨rfl, Nat.le_succ _, hlt, by simp [hfl]⟩, Nat.lt_succ_self _,
        by simp [IStream.good, he, hfl]⟩
    | none =>
      simp only [IStream.peek, hg, hd, getChar, if_true]
      exact ⟨rfl, Nat.le_refl _, h1, fun _ => rfl⟩
  · have he := eof_of_not_good h hg
    simp only [IStream.peek, hg, getChar, he, if_true, if_false, Bool.false_eq_true]
    exact ⟨rfl, Nat.le_refl _, h1, fun _ => rfl⟩

/-- A `getChar`: it throws, or returns a byte; a byte other than `eofChar` was
taken from the data and the stream is left good. -/
theorem getChar_ends {s : IStream} (h : s.Inv) :
    Step.Ends s (fun c t => c ≠ eofChar → t.good = true) (getChar s) := by
  have h1 := h.1
  by_cases hg : s.good = true
  · obtain ⟨he, hfl⟩ := flags_of_good hg
    cases hd : s.data[s.pos]? with
    | some c =>
      have hlt := lt_length_of_getElem? hd
      simp only [getChar, he, IStream.get, hg, hd, if_true, Bool.false_eq_true, if_false]
      exact ⟨⟨rfl, Nat.le_succ _, hlt, by simp [hfl]⟩, fun _ => by simp [IStream.good, he, hfl]⟩
    | none =>
      simp only [getChar, he, IStream.get, hg, hd, if_true, Bool.false_eq_true, if_false]
      exact ⟨⟨rfl, Nat.le_refl _, h1, fun _ => rfl⟩, fun hc => absurd rfl hc⟩
  · have he := eof_of_not_good h hg
    simp only [getChar, he, if_true]
    exact ⟨rfl, Nat.le_refl _, h1, h.2⟩

theorem peek_real {s : IStream} (h : s.peek.1 ≠ eofChar) : s.peek.2 = s := by
  by_cases hg : s.good = true
  · cases hd : s.data[s.pos]? with
    | some c => simp [IStream.peek, hg, hd]
    | none => simp [IStream.peek, hg, hd] at h
  · simp [IStream.peek, hg] at h

theorem peek_failbit_of_good {s : IStream} (hg : s.good = true) :
    s.peek.2.failbit = false := by
  obtain ⟨_, hfl⟩ := flags_of_good hg
  unfold IStream.peek
  simp only [hg, if_true]
  split <;> exact hfl

theorem tellg_reach {s : IStream} (h : s.Inv) : s.Reach s.tellg.2 := by
  unfold IStream.tellg
  split
  · exact reach_refl h
  · rename_i hg
    have he : s.eofbit = true := eof_of_not_good h hg
    exact ⟨rfl, Nat.le_refl _, h.1, fun _ => he⟩

theorem tellg_good {s : IStream} (hg : s.good = true) : s.tellg = ((s.pos : Int), s) := by
  simp [IStream.tellg, hg]

theorem seekg_back {s t : IStream} (h : s.Inv) (hg : s.good = true)
    (hd : t.data = s.data) (hf : t.failbit = false) : t.seekg (s.pos : Int) = s := by
  obtain ⟨he, hfl⟩ := flags_of_good hg
  obtain ⟨data, pos, eofbit, failbit⟩ := s
  obtain ⟨data1, pos1, eofbit1, failbit1⟩ := t
  simp only at hd hf he hfl
  subst hd hf he hfl
  have hp : pos ≤ data1.length := h.1
  simp [IStream.seekg, hp]

theorem expect_ends {s : IStream} (c : Nat) (msg : String) (h : s.Inv) :
    Step.Ends s (fun _ t => s.pos < t.pos ∧ t.good = true) (expect c msg s) := by
  unfold expect
  simp only [check, peekChar]
  split
  · exact peek_reach h
  · exact ends_bind (getChar_after_peek h) (fun _ t ht hq => ⟨reach_refl ht.2.2, hq⟩)

theorem checkStrLoop_ends :
    ∀ (es : List Nat) (s : IStream), s.Inv → s.good = true →
      Step.Ends s (fun _ t => t.failbit = false) (checkStrLoop es s.peek.1 s.peek.2) := by
  intro es
  induction es with
  | nil =>
    intro s h hg
    exact ⟨peek_reach h, peek_failbit_of_good hg⟩
  | cons e es ih =>
    intro s h hg
    unfold checkStrLoop
    split
    · exact ends_bind (getChar_after_peek h) (fun _ t ht hq => ih t ht.2.2 hq.2)
    · exact ⟨peek_reach h, peek_failbit_of_good hg⟩

/-- On a good stream `check(lexer, std::string)` ends where it started. -/
theorem checkStr_ends (es : List Nat) {s : IStream} (h : s.Inv) (hg : s.good = true) :
    Step.Ends s (fun _ t => t = s) (checkStr es s) := by
  unfold checkStr
  simp only [tellg_good hg, peekChar]
  have hl := checkStrLoop_ends es s h hg
  cases hx : checkStrLoop es s.peek.1 s.peek.2 with
  | ok b t =>
    rw [hx] at hl
    have : t.seekg (s.pos : Int) = s := seekg_back h hg hl.1.1 hl.2
    simp only [Step.bind, this]
    exact ⟨reach_refl h, rfl⟩
  | thrown m t => rw [hx] at hl; exact hl
  | hang => rw [hx] at hl; exact hl

theorem getChars_ends :
    ∀ (n : Nat) (s : IStream), s.Inv → Step.Ends s (fun _ _ => True) (getChars n s) := by
  intro n
  induction n with
  | zero => intro s h; exact ⟨reach_refl h, trivial⟩
  | succ n ih =>
    intro s h
    unfold getChars
    exact ends_bind (getChar_ends h) (fun _ t ht _ => ih t ht.2.2)

theorem expectStr_ends (es : List Nat) (msg : String) {s : IStream} (h : s.Inv)
    (hg : s.good = true) : Step.Ends s (fun _ _ => True) (expectStr es msg s) := by
  unfold expectStr
  refine ends_bind (checkStr_ends es h hg) (fun b t ht hq => ?_)
  split
  · exact reach_refl ht.2.2
  · exact getChars_ends _ t ht.2.2

theorem skipBom_ends {s : IStream} (h : s.Inv) :
    Step.Ends s (fun _ _ => True) (skipBom s) := by
  unfold skipBom
  simp only [check, peekChar]
  split
  · exact ends_bind (getChar_after_peek h)
      (fun _ t ht hq => expectStr_ends _ _ ht.2.2 hq.2)
  · exact ⟨peek_reach h, trivial⟩

theorem skipIgnoredLoop_ends :
    ∀ (fuel : Nat) (s : IStream), s.Inv → s.data.length - s.pos < fuel →
      Step.Ends s (fun _ _ => True) (skipIgnoredLoop fuel s.peek.1 s.peek.2) := by
  intro fuel
  induction fuel with
  | zero => intro s _ hf; omega
  | succ n ih =>
    intro s h hf
    unfold skipIgnoredLoop
    split
    · refine ends_bind (getChar_after_peek h) (fun _ t ht hq => ?_)
      have hl : t.pos ≤ t.data.length := ht.2.2.1
      have hd : t.data.length = s.data.length := by rw [ht.1]
      exact ih t ht.2.2 (by omega)
    · exact ⟨peek_reach h, trivial⟩

theorem skipIgnored_ends {s : IStream} (h : s.Inv) :
    Step.Ends s (fun _ _ => True) (skipIgnored s) := by
  unfold skipIgnored
  exact skipIgnoredLoop_ends _ s h (by omega)

theorem keyChar_ne_eof {x : Nat} (h : isKeyInternal x = true) : x ≠ eofChar := by
  intro hx; subst hx; revert h; decide

theorem readKeyLoop_ends :
    ∀ (fuel : Nat) (s : IStream) (buffer : List Nat), s.Inv →
      s.data.length - s.pos < fuel →
      Step.Ends s
        (fun tok t => tok.m_kind = TokenKind.Key ∧ (isKeyInternal s.peek.1 = true → s.pos < t.pos))
        (readKeyLoop fuel s.peek.1 buffer s.peek.2) := by
  intro fuel
  induction fuel with
  | zero => intro s _ _ hf; omega
  | succ n ih =>
    intro s buffer h hf
    unfold readKeyLoop
    split
    · split
      · exact peek_reach h
      · refine ends_bind (getChar_after_peek h) (fun _ t ht hq => ?_)
        have hl : t.pos ≤ t.data.length := ht.2.2.1
        have hd : t.data.length = s.data.length := by rw [ht.1]
        refine ends_mono (ih t _ ht.2.2 (by omega)) (fun tok u hu hr => ⟨hr.1, fun _ => ?_⟩)
        exact Nat.lt_of_lt_of_le hq.1 hu.2.1
    · rename_i hc
      refine ⟨peek_reach h, rfl, fun hk => ?_⟩
      exact absurd (keyChar_continues hk) hc

theorem readKey_ends {s : IStream} (h : s.Inv) :
    Step.Ends s
      (fun tok t => tok.m_kind = TokenKind.Key ∧ (isKeyInternal s.peek.1 = true → s.pos < t.pos))
      (readKey s) := by
  unfold readKey
  exact readKeyLoop_ends _ s [] h (by omega)

theorem makeCodepointLoop_eof :
    ∀ (ds : List Nat) (i : Nat) (c : CodePoint),
      ∃ m, makeCodepointLoop (ds ++ [eofChar]) i c = Except.error m := by
  intro ds
  induction ds with
  | nil =>
    intro i c
    refine ⟨"Unexpected symbol found in escape sequence", ?_⟩
    simp [makeCodepointLoop, eofChar]
  | cons d ds ih =>
    intro i c
    simp only [List.cons_append, makeCodepointLoop]
    split
    · exact ih _ _
    · split
      · exact ih _ _
      · split
        · exact ih _ _
        · exact ⟨_, rfl⟩

theorem makeCodepoint_last {e0 e1 e2 e3 : Nat} {cp : CodePoint}
    (h : makeCodepoint [e0, e1, e2, e3] = Except.ok cp) : e3 ≠ eofChar := by
  intro h3
  subst h3
  obtain ⟨m, hm⟩ := makeCodepointLoop_eof [e0, e1, e2] 0 0
  simp only [List.cons_append, List.nil_append] at hm
  simp [makeCodepoint, hm] at h

theorem readEscapedCodepoint_ends {s : IStream} (h : s.Inv) :
    Step.Ends s (fun _ t => t.good = true) (readEscapedCodepoint s) := by
  unfold readEscapedCodepoint
  refine ends_bind (getChar_ends h) (fun e0 s0 h0 _ => ?_)
  refine ends_bind (getChar_ends h0.2.2) (fun e1 s1 h1 _ => ?_)
  refine ends_bind (getChar_ends h1.2.2) (fun e2 s2 h2 _ => ?_)
  refine ends_bind (getChar_ends h2.2.2) (fun e3 s3 h3 q3 => ?_)
  cases hm : makeCodepoint [e0, e1, e2, e3] with
  | ok cp => exact ⟨reach_refl h3.2.2, q3 (makeCodepoint_last hm)⟩
  | error m => exact reach_refl h3.2.2

theorem readEscaped_ends {s : IStream} (h : s.Inv) :
    Step.Ends s (fun _ _ => True) (readEscaped s) := by
  have p1 := peek_reach h
  have p2 := peek_reach p1.2.2
  have p3 := peek_reach p2.2.2
  have p4 := peek_reach p3.2.2
  have q2 := reach_trans p1 p2
  have q3 := reach_trans q2 p3
  have q4 := reach_trans q3 p4
  have fin : ∀ (bytes : List Nat) (u : IStream), u.Inv →
      Step.Ends u (fun (_ : List Nat) _ => True) (Step.ok bytes u) :=
    fun _ u hu => ⟨reach_refl hu, trivial⟩
  unfold readEscaped
  simp only [check, peekChar]
  split
  · exact ends_bind (getChar_after_peek h) (fun _ t ht _ => fin _ t ht.2.2)
  · split
    · exact ends_from p1
        (ends_bind (getChar_after_peek p1.2.2) (fun _ t ht _ => fin _ t ht.2.2))
    · split
      · exact ends_from q2
          (ends_bind (getChar_after_peek p2.2.2) (fun _ t ht _ => fin _ t ht.2.2))
      · split
        · refine ends_from q3 (ends_bind (getChar_after_peek p3.2.2) (fun _ s1 h1 _ => ?_))
          refine ends_bind (readEscapedCodepoint_ends h1.2.2) (fun cp s2 h2 g2 => ?_)
          split
          · refine ends_bind (expectStr_ends _ _ h2.2.2 g2) (fun _ s3 h3 _ => ?_)
            refine ends_bind (readEscapedCodepoint_ends h3.2.2) (fun low s4 h4 _ => ?_)
            split
            · exact reach_refl h4.2.2
            · exact fin _ s4 h4.2.2
          · exact fin _ s2 h2.2.2
        · exact q4

theorem readUnescaped_ends {s : IStream} (h : s.Inv) :
    Step.Ends s (fun _ t => s.pos < t.pos) (readUnescaped s) := by
  unfold readUnescaped
  simp only [peekChar]
  split
  · exact peek_reach h
  · exact ends_bind (getChar_after_peek h) (fun _ t ht hq => ⟨reach_refl ht.2.2, hq.1⟩)

theorem readValueLoop_ends :
    ∀ (fuel : Nat) (c : Nat) (buffer : List Nat) (s : IStream), s.Inv →
      s.data.length - s.pos < fuel →
      Step.Ends s (fun tok _ => tok.m_kind = TokenKind.Value)
        (readValueLoop fuel c buffer s) := by
  intro fuel
  induction fuel with
  | zero => intro _ _ s _ hf; omega
  | succ n ih =>
    intro c buffer s h hf
    have p1 := peek_reach h
    have hp : s.peek.2.pos = s.pos := peek_pos s
    unfold readValueLoop
    simp only [check, peekChar]
    split
    · split
      · refine ends_bind (getChar_after_peek h) (fun _ s1 h1 q1 => ?_)
        refine ends_bind (readEscaped_ends h1.2.2) (fun bytes s2 h2 _ => ?_)
        have r2 := peek_reach h2.2.2
        have hl : s2.pos ≤ s2.data.length := h2.2.2.1
        have hd : s2.data.length = s.data.length := by rw [h2.1, h1.1]
        have hlt : s.pos < s2.pos := Nat.lt_of_lt_of_le q1.1 h2.2.1
        have hp2 : s2.peek.2.pos = s2.pos := peek_pos s2
        have hd2 : s2.peek.2.data.length = s2.data.length := by rw [peek_data]
        exact ends_from r2 (ih _ _ _ r2.2.2 (by omega))
      · refine ends_from p1 (ends_bind (readUnescaped_ends p1.2.2) (fun ch s1 h1 q1 => ?_))
        have r1 := peek_reach h1.2.2
        have hl : s1.pos ≤ s1.data.length := h1.2.2.1
        have hd : s1.data.length = s.data.length := by rw [h1.1, peek_data]
        have hp1 : s1.peek.2.pos = s1.pos := peek_pos s1
        have hd1 : s1.peek.2.data.length = s1.data.length := by rw [peek_data]
        exact ends_from r1 (ih _ _ _ r1.2.2 (by omega))
    · exact ⟨reach_refl h, rfl⟩

theorem readValue_ends {s : IStream} (h : s.Inv) :
    Step.Ends s (fun tok t => tok.m_kind = TokenKind.Value ∧ s.pos < t.pos) (readValue s) := by
  unfold readValue
  simp only [peekChar]
  refine ends_bind (expect_ends _ _ h) (fun _ s1 h1 q1 => ?_)
  have r1 := peek_reach h1.2.2
  have hp1 : s1.peek.2.pos = s1.pos := peek_pos s1
  have hd1 : s1.peek.2.data.length = s1.data.length := by rw [peek_data]
  have hl : s1.pos ≤ s1.data.length := h1.2.2.1
  have hfuel : s1.peek.2.data.length - s1.peek.2.pos < s1.data.length + 1 := by omega
  refine ends_from r1 (ends_mono (readValueLoop_ends _ _ _ _ r1.2.2 hfuel)
    (fun tok u hu hk => ⟨hk, ?_⟩))
  have : s1.peek.2.pos ≤ u.pos := hu.2.1
  omega

theorem single_ends {s : IStream} (c : Nat) (msg : String) (tok : Token) (h : s.Inv) :
    Step.Ends s (fun tk t => Token.Took s tk t)
      ((expect c msg s).bind fun _ s1 => Step.ok tok s1) :=
  ends_bind (expect_ends c msg h)
    (fun _ _ ht hq => ⟨reach_refl ht.2.2, Or.inr (Or.inr hq.1)⟩)

theorem readTokenDispatch_ends {s : IStream} (h : s.Inv) :
    Step.Ends s (fun tk t => Token.Took s tk t) (readTokenDispatch s) := by
  have p1 := peek_reach h
  have p2 := peek_reach p1.2.2
  have p3 := peek_reach p2.2.2
  have p4 := peek_reach p3.2.2
  have p5 := peek_reach p4.2.2
  have p6 := peek_reach p5.2.2
  have q2 := reach_trans p1 p2
  have q3 := reach_trans q2 p3
  have q4 := reach_trans q3 p4
  have q5 := reach_trans q4 p5
  have q6 := reach_trans q5 p6
  have e1 : s.peek.2.pos = s.pos := peek_pos s
  have e2 : s.peek.2.peek.2.pos = s.pos := by rw [peek_pos, e1]
  have e3 : s.peek.2.peek.2.peek.2.pos = s.pos := by rw [peek_pos, e2]
  have e4 : s.peek.2.peek.2.peek.2.peek.2.pos = s.pos := by rw [peek_pos, e3]
  have e5 : s.peek.2.peek.2.peek.2.peek.2.peek.2.pos = s.pos := by rw [peek_pos, e4]
  have e6 : s.peek.2.peek.2.peek.2.peek.2.peek.2.peek.2.pos = s.pos := by rw [peek_pos, e5]
  have lift : ∀ {u : IStream} {x : Step Token}, s.Reach u → u.pos = s.pos →
      Step.Ends u (fun tk t => Token.Took u tk t) x →
      Step.Ends s (fun tk t => Token.Took s tk t) x := by
    intro u x hu he hx
    refine ends_from hu (ends_mono hx (fun tk t _ hq => ?_))
    unfold Token.Took at hq ⊢
    rw [he] at hq
    exact hq
  unfold readTokenDispatch
  simp only [check, checkIsKey, peekChar]
  split
  · exact lift p1 e1 (single_ends _ _ _ p1.2.2)
  · split
    · rename_i hk
      have hk1 : isKeyInternal s.peek.2.peek.1 = true := hk
      have hreal : s.peek.2.peek.2 = s.peek.2 := peek_real (keyChar_ne_eof hk1)
      have hk2 : isKeyInternal s.peek.2.peek.2.peek.1 = true := by rw [hreal]; exact hk1
      refine lift q2 e2 (ends_mono (readKey_ends p2.2.2) (fun tk t _ hq => ?_))
      exact Or.inr (Or.inr (hq.2 hk2))
    · split
      · exact lift q3 e3 (single_ends _ _ _ p3.2.2)
      · split
        · exact lift q4 e4 (single_ends _ _ _ p4.2.2)
        · split
          · exact lift q5 e5 (single_ends _ _ _ p5.2.2)
          · split
            · refine lift q6 e6 (ends_mono (readValue_ends p6.2.2) (fun tk t _ hq => ?_))
              exact Or.inr (Or.inr hq.2)
            · exact ⟨q6, Or.inl rfl⟩

theorem readToken_ends {s : IStream} (h : s.Inv) :
    Step.Ends s (fun tk t => Token.Took s tk t) (readToken s) := by
  have p0 := tellg_reach h
  unfold readToken
  simp only [getPosition]
  have first : Step.Ends s (fun (_ : Unit) _ => True)
      (if (s.tellg.1 == 0) = true then skipBom s.tellg.2 else Step.ok () s.tellg.2) := by
    split
    · exact ends_from p0 (skipBom_ends p0.2.2)
    · exact ⟨p0, trivial⟩
  refine ends_bind first (fun _ s1 h1 _ => ?_)
  refine ends_bind (skipIgnored_ends h1.2.2) (fun _ s2 h2 _ => ?_)
  split
  · split
    · exact ⟨reach_refl h2.2.2, Or.inr (Or.inl rfl)⟩
    · exact reach_refl h2.2.2
  · refine ends_mono (readTokenDispatch_ends h2.2.2) (fun tk t _ hq => ?_)
    have a1 : s.pos ≤ s1.pos := h1.2.1
    have a2 : s1.pos ≤ s2.pos := h2.2.1
    rcases hq with hq | hq | hq
    · exact Or.inl hq
    · exact Or.inr (Or.inl hq)
    · exact Or.inr (Or.inr (by omega))

theorem later_refl {l : Lexer} (h : l.m_stream.Inv) : l.Later l :=
  ⟨reach_refl h, fun _ => rfl⟩

theorem later_trans {l l1 l2 : Lexer} (h1 : l.Later l1) (h2 : l1.Later l2) : l.Later l2 := by
  refine ⟨reach_trans h1.1 h2.1, fun hf => ?_⟩
  have e1 := h1.2 hf
  subst e1
  exact h2.2 hf

theorem later_left {l l1 : Lexer} (h : l.Later l1) : l1.left ≤ l.left := by
  have h1 : l1.m_stream.data = l.m_stream.data := h.1.1
  have h2 : l.m_stream.pos ≤ l1.m_stream.pos := h.1.2.1
  unfold Lexer.left
  rw [h1]
  omega

/-- Method `getNext` returns; a token that is neither an error nor the end of
the data took at least one byte. -/
theorem getNext_spec {l : Lexer} (h : l.m_stream.Inv) :
    ∃ l1, l.getNext = some l1 ∧ l.Later l1 ∧
      (l1.m_lastToken.m_kind = TokenKind.ParseError ∨
        l1.m_lastToken.m_kind = TokenKind.ParseEnd ∨ l1.left < l.left) := by
  unfold Lexer.getNext
  by_cases hf : l.isFinished = true
  · simp only [hf, if_true]
    refine ⟨l, rfl, later_refl h, Or.inr (Or.inl ?_)⟩
    simpa [Lexer.isFinished] using hf
  · simp only [hf, if_false]
    have hr := readToken_ends h
    cases hx : readToken l.m_stream with
    | ok t s =>
      rw [hx] at hr
      refine ⟨⟨s, t⟩, rfl, ⟨hr.1, fun h1 => absurd h1 hf⟩, ?_⟩
      rcases hr.2 with hq | hq | hq
      · exact Or.inl hq
      · exact Or.inr (Or.inl hq)
      · refine Or.inr (Or.inr ?_)
        have h1 : s.data = l.m_stream.data := hr.1.1
        have h2 : s.pos ≤ s.data.length := hr.1.2.2.1
        simp only [Lexer.left]
        rw [h1] at h2 ⊢
        omega
    | thrown m s =>
      rw [hx] at hr
      have ht := tellg_reach hr.2.2
      exact ⟨_, rfl, ⟨reach_trans hr ht, fun h1 => absurd h1 hf⟩, Or.inl rfl⟩
    | hang => rw [hx] at hr; exact absurd hr id

theorem getCurrent_eq_getNext (l : Lexer) : l.getCurrent = l.getNext := by
  unfold Lexer.getCurrent
  split
  · rfl
  · rename_i hc
    have : l.isFinished = true := by
      have hc1 : l.m_lastToken.toBool = true ∧ l.isFinished = true := by simpa using hc
      exact hc1.2
    simp [Lexer.getNext, this]

theorem checkKind_spec (k : TokenKind) {l : Lexer} (h : l.m_stream.Inv) :
    ∃ b l1, checkKind k l = some (b, l1) ∧ l.Later l1 ∧
      (b = true → l1.m_lastToken.m_kind = k) := by
  obtain ⟨l1, h1, hl, _⟩ := getNext_spec h
  refine ⟨l1.m_lastToken.m_kind == k, l1, ?_, hl, fun hb => by simpa using hb⟩
  simp [checkKind, getCurrent_eq_getNext, h1]

theorem consume_spec {l : Lexer} (h : l.m_stream.Inv) :
    ∃ l1, consume l = some l1 ∧ l.Later l1 := by
  obtain ⟨l1, h1, hl, _⟩ := getNext_spec h
  obtain ⟨l2, h2, hl2, _⟩ := getNext_spec hl.1.2.2
  exact ⟨l2, by simp [consume, getCurrent_eq_getNext, h1, h2], later_trans hl hl2⟩

theorem caseSound_from {l l1 : Lexer} {r : Option (Action × Lexer)} (h : l.Later l1)
    (hr : CaseSound l1 r) : CaseSound l r := by
  match r, hr with
  | some (a, l2), hr =>
    refine ⟨later_trans h hr.1, hr.2.1, fun hf => ?_⟩
    have e := h.2 hf
    subst e
    exact hr.2.2 hf

theorem not_finished_of_kind {l l1 : Lexer} {k : TokenKind} (h : l.Later l1)
    (hk : l1.m_lastToken.m_kind = k) (hne : k ≠ TokenKind.ParseEnd) :
    l.isFinished = true → False := by
  intro hf
  have e := h.2 hf
  subst e
  simp [Lexer.isFinished] at hf
  exact hne (hk ▸ hf)

theorem sound_zero {l l1 : Lexer} {a : Action} (h : l.Later l1) (ha : a.pushed = 0) :
    CaseSound l (some (a, l1)) :=
  ⟨h, by omega, fun _ => ha⟩

theorem sound_token {l l1 : Lexer} {k : TokenKind} {expected : List StateKind}
    (h : l.Later l1) (hk : l1.m_lastToken.m_kind = k) (hne : k ≠ TokenKind.ParseEnd)
    (hw : stackWeight expected ≤ 5) : CaseSound l (some (Action.Expect expected, l1)) :=
  ⟨h, hw, fun hf => absurd hf (fun hf1 => not_finished_of_kind h hk hne hf1)⟩

theorem caseNextEntry_sound {l : Lexer} (h : l.m_stream.Inv) :
    CaseSound l (caseNextEntry l) := by
  obtain ⟨b, l1, hc, hl, hb⟩ := checkKind_spec TokenKind.EntrySeparator h
  unfold caseNextEntry
  rw [hc]
  cases b with
  | true => exact sound_token hl (hb rfl) (by decide) (by decide)
  | false => exact sound_zero hl rfl

theorem caseTextValue_sound {l : Lexer} (h : l.m_stream.Inv) :
    CaseSound l (caseTextValue l) := by
  obtain ⟨b, l1, hc, hl, hb⟩ := checkKind_spec TokenKind.Value h
  unfold caseTextValue
  rw [hc]
  cases b with
  | true =>
    obtain ⟨l2, h2, hl2⟩ := consume_spec hl.1.2.2
    simp only [h2]
    exact caseSound_from hl (sound_zero hl2 rfl)
  | false => exact caseSound_from hl (caseNextEntry_sound hl.1.2.2)

theorem caseValue_sound {l : Lexer} (h : l.m_stream.Inv) :
    CaseSound l (caseValue l) := by
  obtain ⟨b, l1, hc, hl, hb⟩ := checkKind_spec TokenKind.Value h
  unfold caseValue
  rw [hc]
  cases b with
  | true => exact sound_token hl (hb rfl) (by decide) (by decide)
  | false =>
    obtain ⟨b2, l2, hc2, hl2, hb2⟩ := checkKind_spec TokenKind.SectionBegin hl.1.2.2
    simp only [hc2]
    cases b2 with
    | true => exact caseSound_from hl (sound_token hl2 (hb2 rfl) (by decide) (by decide))
    | false =>
      exact caseSound_from hl (caseSound_from hl2 (caseTextValue_sound hl2.1.2.2))

theorem caseKeyValueSeparator_sound {l : Lexer} (h : l.m_stream.Inv) :
    CaseSound l (caseKeyValueSeparator l) := by
  obtain ⟨b, l1, hc, hl, hb⟩ := checkKind_spec TokenKind.KeyValueSeparator h
  unfold caseKeyValueSeparator
  rw [hc]
  cases b with
  | true =>
    obtain ⟨l2, h2, hl2⟩ := consume_spec hl.1.2.2
    simp only [h2]
    exact caseSound_from hl (sound_zero hl2 rfl)
  | false => exact caseSound_from hl (caseValue_sound hl.1.2.2)

theorem caseKey_sound {l : Lexer} (h : l.m_stream.Inv) :
    CaseSound l (caseKey l) := by
  obtain ⟨b, l1, hc, hl, hb⟩ := checkKind_spec TokenKind.Key h
  unfold caseKey
  rw [hc]
  cases b with
  | true =>
    obtain ⟨l2, h2, hl2⟩ := consume_spec hl.1.2.2
    simp only [h2]
    exact caseSound_from hl (sound_zero hl2 rfl)
  | false => exact caseSound_from hl (caseKeyValueSeparator_sound hl.1.2.2)

theorem caseEntries_sound {l : Lexer} (h : l.m_stream.Inv) :
    CaseSound l (caseEntries l) := by
  obtain ⟨b, l1, hc, hl, hb⟩ := checkKind_spec TokenKind.Key h
  unfold caseEntries
  rw [hc]
  cases b with
  | true => exact sound_token hl (hb rfl) (by decide) (by decide)
  | false => exact sound_zero hl rfl

theorem caseSectionEnd_sound {l : Lexer} (h : l.m_stream.Inv) :
    CaseSound l (caseSectionEnd l) := by
  obtain ⟨b, l1, hc, hl, hb⟩ := checkKind_spec TokenKind.SectionEnd h
  unfold caseSectionEnd
  rw [hc]
  cases b with
  | true =>
    obtain ⟨l2, h2, hl2⟩ := consume_spec hl.1.2.2
    simp only [h2]
    exact caseSound_from hl (sound_zero hl2 rfl)
  | false => exact caseSound_from hl (caseEntries_sound hl.1.2.2)

theorem caseSectionBegin_sound {l : Lexer} (h : l.m_stream.Inv) :
    CaseSound l (caseSectionBegin l) := by
  obtain ⟨b, l1, hc, hl, hb⟩ := checkKind_spec TokenKind.SectionBegin h
  unfold caseSectionBegin
  rw [hc]
  cases b with
  | true =>
    obtain ⟨l2, h2, hl2⟩ := consume_spec hl.1.2.2
    simp only [h2]
    exact caseSound_from hl (sound_zero hl2 rfl)
  | false => exact caseSound_from hl (caseSectionEnd_sound hl.1.2.2)

theorem switchSound_of_case {state : StateKind} {l : Lexer} {r : Option (Action × Lexer)}
    (hw : 0 < state.weight) (h : CaseSound l r) : SwitchSound state l r := by
  match r, h with
  | some (Action.Fail _, _), _ => trivial
  | some (Action.Expect _, l1), h =>
    exact ⟨h.1, h.2.1, fun hf => by rw [h.2.2 hf]; exact hw⟩
  | some (Action.Produce _, l1), h =>
    exact ⟨h.1, h.2.1, fun hf => by rw [h.2.2 hf]; exact hw⟩

theorem doSwitch_sound (state : StateKind) {l : Lexer} (h : l.m_stream.Inv) :
    SwitchSound state l (doSwitch state l) := by
  cases state with
  | Start => exact ⟨later_refl h, by decide, fun _ => by decide⟩
  | Section => exact ⟨later_refl h, by decide, fun _ => by decide⟩
  | SectionBegin => exact switchSound_of_case (by decide) (caseSectionBegin_sound h)
  | SectionEnd => exact switchSound_of_case (by decide) (caseSectionEnd_sound h)
  | Entry => exact ⟨later_refl h, by decide, fun _ => by decide⟩
  | NextEntry => exact switchSound_of_case (by decide) (caseNextEntry_sound h)
  | EntrySeparator =>
    obtain ⟨l1, h1, _, _⟩ := getNext_spec h
    simp only [doSwitch, getCurrent_eq_getNext, h1, Action.fail]
    trivial
  | Entries => exact switchSound_of_case (by decide) (caseEntries_sound h)
  | Key => exact switchSound_of_case (by decide) (caseKey_sound h)
  | Value => exact switchSound_of_case (by decide) (caseValue_sound h)
  | KeyValueSeparator => exact switchSound_of_case (by decide) (caseKeyValueSeparator_sound h)
  | TextValue => exact switchSound_of_case (by decide) (caseTextValue_sound h)

theorem weight_pos (state : StateKind) : 0 < state.weight := by
  cases state <;> decide

theorem doTransition_sound (state : StateKind) {l : Lexer} (h : l.m_stream.Inv) :
    TransitionSound state l (doTransition state l) := by
  obtain ⟨l1, h1, hl, hk⟩ := getNext_spec h
  have hle := later_left hl
  have hw := weight_pos state
  by_cases hpe : l1.m_lastToken.m_kind = TokenKind.ParseError
  · obtain ⟨l2, h2, _, _⟩ := getNext_spec hl.1.2.2
    simp only [doTransition, checkKind, getCurrent_eq_getNext, h1, hpe, beq_self_eq_true, h2,
      Action.fail]
    trivial
  · have hb : (l1.m_lastToken.m_kind == TokenKind.ParseError) = false := by simp [hpe]
    have hs := doSwitch_sound state hl.1.2.2
    simp only [doTransition, checkKind, getCurrent_eq_getNext, h1, hb]
    have key : ∀ (a : Action) (l2 : Lexer), l1.Later l2 → a.pushed ≤ 5 →
        (l1.isFinished = true → a.pushed < state.weight) →
        l2.m_stream.Inv ∧ 5 * l2.left + a.pushed < 5 * l.left + state.weight := by
      intro a l2 h12 hp hfin
      have hle2 := later_left h12
      refine ⟨h12.1.2.2, ?_⟩
      rcases hk with hk | hk | hk
      · exact absurd hk hpe
      · have hf1 : l1.isFinished = true := by simp [Lexer.isFinished, hk]
        have := hfin hf1
        omega
      · omega
    match hd : doSwitch state l1, hs with
    | some (Action.Fail _, _), _ => trivial
    | some (Action.Expect es, l2), hs => exact key _ l2 hs.1 hs.2.1 hs.2.2
    | some (Action.Produce ps, l2), hs => exact key _ l2 hs.1 hs.2.1 hs.2.2

theorem stackWeight_append (a b : List StateKind) :
    stackWeight (a ++ b) = stackWeight a + stackWeight b := by
  simp [stackWeight]

theorem stackWeight_cons (st : StateKind) (b : List StateKind) :
    stackWeight (st :: b) = st.weight + stackWeight b := by
  simp [stackWeight]

/-- The loop of `Parser::parse` returns when its fuel covers five turns for
each byte left and the weight of the stack. -/
theorem parseLoop_total :
    ∀ (fuel : Nat) (states : List StateKind) (out : List Product) (l : Lexer),
      l.m_stream.Inv → 5 * l.left + stackWeight states ≤ fuel →
      ∃ r, parseLoop fuel states out l = some r := by
  intro fuel
  induction fuel with
  | zero =>
    intro states out l _ hf
    cases states with
    | nil => exact ⟨_, rfl⟩
    | cons st rest =>
      have := weight_pos st
      rw [stackWeight_cons] at hf
      omega
  | succ n ih =>
    intro states out l h hf
    cases states with
    | nil => exact ⟨_, rfl⟩
    | cons st rest =>
      rw [stackWeight_cons] at hf
      have hs := doTransition_sound st h
      simp only [parseLoop]
      match hd : doTransition st l, hs with
      | some (Action.Fail _, _), _ => exact ⟨_, rfl⟩
      | some (Action.Expect es, l2), hs =>
        have h2 : 5 * l2.left + stackWeight es < 5 * l.left + st.weight := hs.2
        exact ih (es ++ rest) out l2 hs.1 (by rw [stackWeight_append]; omega)
      | some (Action.Produce ps, l2), hs =>
        have h2 : 5 * l2.left + 0 < 5 * l.left + st.weight := hs.2
        exact ih rest (out ++ ps) l2 hs.1 (by omega)

/-- Method `Parser::parse` returns on every input. -/
theorem parse_total (input : List Nat) : ∃ r, parse input = some r := by
  unfold parse
  refine parseLoop_total _ _ _ _ ⟨Nat.zero_le _, fun hf => by cases hf⟩ ?_
  simp only [Lexer.left, Lexer.new, IStream.ofBytes, parseFuel]
  have : stackWeight [StateKind.Start] = 5 := rfl
  omega

/-! ## Claims on whole parses -/

set_option maxRecDepth 100000

/-- Claim C1, at the input of the test `can_parse_section`: on
`{ key: "value" }` the parse succeeds, but its tree is empty, the entry
`key -> value` is missing. -/
theorem parse_section_actual :
    parse (strBytes "\x7b key: \"value\" \x7d") = some ⟨true, [], none⟩ := by
  decide

/-- Claim C2, at the input of the test `can_not_parse_empty`: the parse of
the empty input, which is no sentence of the grammar, succeeds. -/
theorem parse_empty_actual : parse [] = some ⟨true, [], none⟩ := by
  decide

/-- Claim C3, at the input of the test `can_parse_nested_section`: on
`{ key: { key2: "value" } }` the parse succeeds, but its tree is empty,
neither `key` nor `key:key2` is in it. -/
theorem parse_nested_section_actual :
    parse (strBytes "\x7b key: \x7b key2: \"value\" \x7d \x7d") = some ⟨true, [], none⟩ := by
  decide

/-- Claim C4: an input made of `{` and `}`, each surrounded by any amount of
whitespace, parses successfully to the empty tree. -/
theorem parse_empty_section (w1 w2 w3 : List Nat)
    (h1 : ∀ c ∈ w1, isspace c = true) (h2 : ∀ c ∈ w2, isspace c = true)
    (h3 : ∀ c ∈ w3, isspace c = true) :
    parse (w1 ++ s_sectionBegin :: (w2 ++ s_sectionEnd :: w3))
      = some ⟨true, [], none⟩ := by
  generalize hd : w1 ++ s_sectionBegin :: (w2 ++ s_sectionEnd :: w3) = data
  have i1 : ∀ c ∈ w1, isIgnored c = true := fun c hc => isIgnored_of_isspace (h1 c hc)
  have i2 : ∀ c ∈ w2, isIgnored c = true := fun c hc => isIgnored_of_isspace (h2 c hc)
  have i3 : ∀ c ∈ w3, isIgnored c = true := fun c hc => isIgnored_of_isspace (h3 c hc)
  -- the places of the data where a token starts or ends
  have d0 : data.drop 0 = w1 ++ s_sectionBegin :: (w2 ++ s_sectionEnd :: w3) := by simp [hd]
  have d1 : data.drop (0 + w1.length) = s_sectionBegin :: (w2 ++ s_sectionEnd :: w3) := by
    rw [Nat.zero_add]; exact drop_of_eq_append hd.symm
  have d2 : data.drop (0 + w1.length + 1) = w2 ++ s_sectionEnd :: w3 := drop_succ_of_drop d1
  have d3 : data.drop (0 + w1.length + 1 + w2.length) = s_sectionEnd :: w3 := by
    have := List.drop_drop w2.length (0 + w1.length + 1) data
    rw [← this, d2]; simp
  have d4 : data.drop (0 + w1.length + 1 + w2.length + 1) = w3 := drop_succ_of_drop d3
  -- the three tokens the parser asks for
  have r1 : readToken ⟨data, 0, false, false⟩
      = Step.ok ⟨TokenKind.KeyValueSeparator, [s_sectionBegin]⟩
          ⟨data, 0 + w1.length + 1, false, false⟩ := by
    rw [readToken_skips i1 (by decide) (by decide) d0, dispatch_sectionBegin d1]
  have r2 : readToken ⟨data, 0 + w1.length + 1, false, false⟩
      = Step.ok ⟨TokenKind.KeyValueSeparator, [s_sectionEnd]⟩
          ⟨data, 0 + w1.length + 1 + w2.length + 1, false, false⟩ := by
    rw [readToken_skips i2 (by decide) (by decide) d2, dispatch_sectionEnd d3]
  have r3 := readToken_at_end i3 (by omega) d4
  have g1 := getCurrent_of_readToken (l := ⟨⟨data, 0, false, false⟩, Token.default⟩)
    (by simp [Token.default]) r1
  have g2 := getCurrent_of_readToken
    (l := ⟨⟨data, 0 + w1.length + 1, false, false⟩,
      ⟨TokenKind.KeyValueSeparator, [s_sectionBegin]⟩⟩) (by simp) r2
  have g3 := getCurrent_of_readToken
    (l := ⟨⟨data, 0 + w1.length + 1 + w2.length + 1, false, false⟩,
      ⟨TokenKind.KeyValueSeparator, [s_sectionEnd]⟩⟩) (by simp) r3
  have hf : parseFuel data = (8 * data.length + 2) + 6 := rfl
  unfold parse
  rw [hf]
  exact parseLoop_three_tokens _ _ _ _ _ g1 g2 g3 (by simp) (by simp) rfl

/-- Claim C4 at the input of the test `can_parse_empty_section`, `{ }`. -/
theorem parse_empty_section_witness :
    (∀ c ∈ ([] : List Nat), isspace c = true) ∧ (∀ c ∈ [0x20], isspace c = true) ∧
      parse ([] ++ s_sectionBegin :: ([0x20] ++ s_sectionEnd :: [])) = some ⟨true, [], none⟩ :=
  ⟨by simp, by decide, parse_empty_section [] [0x20] [] (by simp) (by decide) (by simp)⟩

/-- Claim C5, at the input `a:` of the test
`can_parse_key_with_adjacent_separator`: the first `getCurrent()` returns the
key `a`, a second one right after it returns the separator `:`, another token,
read from further input. -/
theorem getCurrent_twice_actual :
    firstToken (strBytes "a:") = some ⟨TokenKind.Key, strBytes "a"⟩ ∧
      secondToken (strBytes "a:") = some ⟨TokenKind.KeyValueSeparator, strBytes ":"⟩ := by
  decide

/-- Claim C6 as stated fails: on `"abc`, a string value cut by the end of the
data, the parse fails with an error whose kind is not `UnexpectedDataEnd`. -/
theorem parse_unterminated_value_kind :
    ∃ r e, parse (strBytes "\"abc") = some r ∧ r.m_success = false ∧ r.m_error = some e ∧
      e.m_kind ≠ ParsingErrorKind.UnexpectedDataEnd :=
  ⟨⟨false, [], some ⟨ParsingErrorKind.UnexpectedTokenReceived, -1⟩⟩,
    ⟨ParsingErrorKind.UnexpectedTokenReceived, -1⟩, by decide, rfl, rfl, by decide⟩

/-- Claim C6, amended: the parse returns, and whenever it fails, so also when
it fails on a string value cut by the end of the data, the error it returns
has the kind `UnexpectedTokenReceived`. -/
theorem parse_failure_kind (input : List Nat) :
    ∃ r, parse input = some r ∧
      (r.m_success = false →
        ∃ e, r.m_error = some e ∧ e.m_kind = ParsingErrorKind.UnexpectedTokenReceived) := by
  obtain ⟨r, hr⟩ := parse_total input
  exact ⟨r, hr, fun hf => (parseLoop_failure _ _ _ _ r hr hf).2⟩

/-- Claim C6, amended, at the input `"abc`: the parse fails there, and the
kind of its error is `UnexpectedTokenReceived`. -/
theorem parse_failure_kind_witness :
    ∃ r e, parse (strBytes "\"abc") = some r ∧ r.m_success = false ∧ r.m_error = some e ∧
      e.m_kind = ParsingErrorKind.UnexpectedTokenReceived := by
  obtain ⟨r, hr, hk⟩ := parse_failure_kind (strBytes "\"abc")
  have hv : parse (strBytes "\"abc")
      = some ⟨false, [], some ⟨ParsingErrorKind.UnexpectedTokenReceived, -1⟩⟩ := by decide
  have hf : r.m_success = false := by
    rw [hv] at hr
    cases hr
    rfl
  obtain ⟨e, he, hek⟩ := hk hf
  exact ⟨r, e, hr, hf, he, hek⟩

/-- Claim C7: the parse returns, and whenever it fails the tree it returns is
the empty map. -/
theorem parse_failure_tree_empty (input : List Nat) :
    ∃ r, parse input = some r ∧ (r.m_success = false → r.m_tree = []) := by
  obtain ⟨r, hr⟩ := parse_total input
  exact ⟨r, hr, fun hf => (parseLoop_failure _ _ _ _ r hr hf).1⟩

/-- Claim C7 at the input `a a a a a k a a k a a #`: the parse accepts the
products of a key and then fails on the error token that `#` makes; it
returns the empty tree. -/
theorem parse_failure_tree_empty_witness :
    ∃ r, parse (strBytes "a a a a a k a a k a a #") = some r ∧ r.m_success = false ∧
      r.m_tree = [] := by
  obtain ⟨r, hr, ht⟩ := parse_failure_tree_empty (strBytes "a a a a a k a a k a a #")
  have hv : parse (strBytes "a a a a a k a a k a a #")
      = some ⟨false, [], some ⟨ParsingErrorKind.UnexpectedTokenReceived, 22⟩⟩ := by decide
  have hf : r.m_success = false := by
    rw [hv] at hr
    cases hr
    rfl
  exact ⟨r, hr, hf, ht hf⟩

/-- Claim C8, at the inputs of the tests `can_parse_section_begin` and
`can_parse_section_end`: the first token of `{` and the first token of `}`
have the kind `KeyValueSeparator`, not `SectionBegin` and `SectionEnd`. -/
theorem firstToken_section_actual :
    firstToken [s_sectionBegin] = some ⟨TokenKind.KeyValueSeparator, [s_sectionBegin]⟩ ∧
      firstToken [s_sectionEnd] = some ⟨TokenKind.KeyValueSeparator, [s_sectionEnd]⟩ := by
  decide

/-- Claim C9: after any whitespace `w`, a non-empty run `r` of bytes of
`[A-Za-z0-9_]` followed by a `:` or by a whitespace byte is read as a `Key`
token whose text is `r`. -/
theorem firstToken_key (w r cont : List Nat) (t : Nat)
    (hw : ∀ c ∈ w, isspace c = true) (hr : r ≠ []) (hrun : ∀ c ∈ r, KeyRunChar c)
    (ht : t = s_keySeparator ∨ isspace t = true) :
    firstToken (w ++ r ++ t :: cont) = some ⟨TokenKind.Key, r⟩ := by
  obtain ⟨c, r1, rfl⟩ : ∃ c r1, r = c :: r1 := by
    cases r with
    | nil => exact absurd rfl hr
    | cons c r1 => exact ⟨c, r1, rfl⟩
  generalize hd : w ++ (c :: r1) ++ t :: cont = data
  have iw : ∀ x ∈ w, isIgnored x = true := fun x hx => isIgnored_of_isspace (hw x hx)
  have kr : ∀ x ∈ c :: r1, isKeyInternal x = true :=
    fun x hx => isKeyInternal_of_keyRunChar (hrun x hx)
  have kc : isKeyInternal c = true := kr c (by simp)
  have ht1 : (t != s_keySeparator && !isIgnored t) = false := by
    rcases ht with ht | ht
    · simp [ht]
    · simp [isIgnored_of_isspace ht]
  have d0 : data.drop 0 = w ++ c :: (r1 ++ t :: cont) := by simp [← hd]
  have d1 : data.drop (0 + w.length) = (c :: r1) ++ t :: cont := by
    rw [Nat.zero_add]; exact drop_of_eq_append (by simp [← hd])
  have hlen : (c :: r1).length < data.length + 1 := by
    have := length_le_of_drop d1
    omega
  have r0 : readToken ⟨data, 0, false, false⟩
      = Step.ok ⟨TokenKind.Key, c :: r1⟩
          ⟨data, 0 + w.length + (c :: r1).length, false, false⟩ := by
    rw [readToken_skips iw (keyChar_not_ignored kc) (keyChar_ne_bom kc) d0,
      dispatch_key (by simpa using d1) kc]
    have := readKeyLoop_run t cont ht1 (c :: r1) [] (data.length + 1) data (0 + w.length)
      kr hlen d1
    simpa [readKey] using this
  have g := getCurrent_of_readToken (l := ⟨⟨data, 0, false, false⟩, Token.default⟩)
    (by simp [Token.default]) r0
  simp [firstToken, Lexer.new, IStream.ofBytes, g]

/-- Claim C9 at the input of the test `can_parse_key_with_whitespace_before`,
two blanks and `key:`. -/
theorem firstToken_key_witness :
    (∀ c ∈ [0x20, 0x20], isspace c = true) ∧ [0x6B, 0x65, 0x79] ≠ [] ∧
      (∀ c ∈ [0x6B, 0x65, 0x79], KeyRunChar c) ∧
      (0x3A = s_keySeparator ∨ isspace 0x3A = true) ∧
      firstToken ([0x20, 0x20] ++ [0x6B, 0x65, 0x79] ++ 0x3A :: [])
        = some ⟨TokenKind.Key, [0x6B, 0x65, 0x79]⟩ :=
  ⟨by decide, by decide, by simp [KeyRunChar], Or.inl rfl,
    firstToken_key [0x20, 0x20] [0x6B, 0x65, 0x79] [] 0x3A (by decide) (by decide)
      (by simp [KeyRunChar]) (Or.inl rfl)⟩

/-- Claim C10, at the bytes `k`, 0x05, `e`, `y`, `:`: the first token is the
key `k`, not a `ParseError`; the control byte ends the key. -/
theorem firstToken_key_control_actual :
    firstToken [0x6B, 0x05, 0x65, 0x79, 0x3A] = some ⟨TokenKind.Key, [0x6B]⟩ := by
  decide

/-! ## Claims on single tokens -/

/-- Claim C13, at the escapes `\x00e9` and `\x00E9`: `makeCodepoint` gives
the letters `a` to `f` and `A` to `F` the values 0 to 5, so the code point
read is 0x49, not 0xE9; the value token has one byte, where the encoding
C3 A9 of U+00E9 has two. -/
theorem makeCodepoint_hex_letters_actual :
    makeCodepoint (strBytes "00e9") = Except.ok 0x49 ∧
      makeCodepoint (strBytes "00E9") = Except.ok 0x49 ∧
      (firstToken (strBytes "\"\\x00e9\"")).map Token.m_kind = some TokenKind.Value ∧
      (firstToken (strBytes "\"\\x00e9\"")).map (fun t => t.m_value.length) = some 1 ∧
      (firstToken (strBytes "\"\\x00E9\"")).map Token.m_kind = some TokenKind.Value ∧
      (firstToken (strBytes "\"\\x00E9\"")).map (fun t => t.m_value.length) = some 1 :=
  ⟨rfl, rfl, by decide, by decide, by decide, by decide⟩

/-- Claim C14, at the input of the test `can_parse_value_with_surrogate_pair`,
`"\xDBFF\xDFFF"`: `DBFF` is read as the code point 0x3155, which is no high
surrogate, so the two escapes are not combined: the value token has six
bytes, three for each escape, where the encoding of U+10FFFF has four. -/
theorem surrogate_pair_actual :
    makeCodepoint (strBytes "DBFF") = Except.ok 0x3155 ∧
      isHighSurrogate 0x3155 = false ∧
      (firstToken (strBytes "\"\\xDBFF\\xDFFF\"")).map Token.m_kind = some TokenKind.Value ∧
      (firstToken (strBytes "\"\\xDBFF\\xDFFF\"")).map (fun t => t.m_value.length)
        = some 6 :=
  ⟨rfl, by decide, by decide, by decide⟩

/-- Claim C15, at the input of the test
`can_not_parse_value_with_wrong_surrogate_pair`, `"\xd890\xd000"`: `d890` is
read as the code point 0x3890, which is no high surrogate, and the first
token is a `Value`, not a `ParseError`. -/
theorem wrong_surrogate_pair_actual :
    makeCodepoint (strBytes "d890") = Except.ok 0x3890 ∧
      isHighSurrogate 0x3890 = false ∧
      (firstToken (strBytes "\"\\xd890\\xd000\"")).map Token.m_kind
        = some TokenKind.Value :=
  ⟨rfl, by decide, by decide⟩

theorem getCurrent_of_thrown {l : Lexer} {m : String} {s : IStream}
    (hfin : l.m_lastToken.m_kind ≠ TokenKind.ParseEnd)
    (h : readToken l.m_stream = Step.thrown m s) :
    l.getCurrent = some ⟨s.tellg.2, ⟨TokenKind.ParseError,
      strBytes ("Parse error at position " ++ toString s.tellg.1 ++ ": " ++ m)⟩⟩ := by
  simp [Lexer.getCurrent, Lexer.getNext, Lexer.isFinished, hfin, h]

/-- Claim C19: when the first byte is 0xEF and the next two are not 0xBB 0xBF,
or the data end before them, the first token is a `ParseError`, with the text
of the message `Wrong BOM` at offset 1. -/
theorem firstToken_wrong_bom (rest : List Nat) (h : rest.take 2 ≠ [0xBB, 0xBF]) :
    firstToken (0xEF :: rest)
      = some ⟨TokenKind.ParseError, strBytes "Parse error at position 1: Wrong BOM"⟩ := by
  have key : readToken ⟨0xEF :: rest, 0, false, false⟩
      = Step.thrown "Wrong BOM" ⟨0xEF :: rest, 1, false, false⟩ := by
    rcases rest with _ | ⟨x, r⟩
    · simp [readToken, getPosition, IStream.tellg, IStream.good, skipBom, check, peekChar,
        IStream.peek, getChar, IStream.get, Step.bind, expectStr, checkStr, checkStrLoop,
        IStream.seekg, eofChar]
    · by_cases hx : x = 0xBB
      · subst hx
        rcases r with _ | ⟨y, r⟩
        · simp [readToken, getPosition, IStream.tellg, IStream.good, skipBom, check, peekChar,
            IStream.peek, getChar, IStream.get, Step.bind, expectStr, checkStr, checkStrLoop,
            IStream.seekg, eofChar]
        · have hy : y ≠ 0xBF := by
            intro hy; subst hy; exact h rfl
          simp [readToken, getPosition, IStream.tellg, IStream.good, skipBom, check, peekChar,
            IStream.peek, getChar, IStream.get, Step.bind, expectStr, checkStr, checkStrLoop,
            IStream.seekg, eofChar, hy]
          omega
      · simp [readToken, getPosition, IStream.tellg, IStream.good, skipBom, check, peekChar,
          IStream.peek, getChar, IStream.get, Step.bind, expectStr, checkStr, checkStrLoop,
          IStream.seekg, eofChar, hx]
        omega
  have g := getCurrent_of_thrown (l := ⟨⟨0xEF :: rest, 0, false, false⟩, Token.default⟩)
    (by simp [Token.default]) key
  simp only [firstToken, Lexer.new, IStream.ofBytes, g, Option.map, IStream.tellg, IStream.good]
  rfl


/-- Claim C19 at the input of the test `can_not_parse_wrong_utf8_bom`, the
bytes EF AA AA and `"vqa"`. -/
theorem firstToken_wrong_bom_witness :
    (0xAA :: 0xAA :: strBytes "\"vqa\"").take 2 ≠ [0xBB, 0xBF] ∧
      firstToken (0xEF :: 0xAA :: 0xAA :: strBytes "\"vqa\"")
        = some ⟨TokenKind.ParseError, strBytes "Parse error at position 1: Wrong BOM"⟩ :=
  ⟨by decide, firstToken_wrong_bom _ (by decide)⟩

/-- Function `readToken` at the start of data made of ignored bytes only: the
token is `ParseEnd`. -/
theorem readToken_all_ignored (input : List Nat)
    (hw : ∀ x ∈ input, isIgnored x = true) :
    ∃ s, readToken ⟨input, 0, false, false⟩ = Step.ok ⟨TokenKind.ParseEnd, []⟩ s := by
  rcases input with _ | ⟨x, w⟩
  · exact ⟨⟨[], 0, true, true⟩, rfl⟩
  · have hd : (x :: w).drop 0 = x :: w := rfl
    have hbom := skipBom_noop hd (isIgnored_ne_bom (hw x (by simp)))
    have hskip : skipIgnored ⟨x :: w, 0, false, false⟩
        = Step.ok () ⟨x :: w, 0 + (x :: w).length, true, false⟩ :=
      skipIgnoredLoop_end (x :: w) _ (x :: w) 0 hw (by simp) hd
    refine ⟨⟨x :: w, 0 + (x :: w).length, true, false⟩, ?_⟩
    simp [readToken, getPosition, IStream.tellg, IStream.good, hbom, Step.bind, hskip]

theorem calls_finished {l : Lexer} (hfin : l.m_lastToken.m_kind = TokenKind.ParseEnd) :
    ∀ cs : List Bool, l.calls cs = some l := by
  intro cs
  induction cs with
  | nil => rfl
  | cons c cs ih =>
    have h1 : l.call c = some l := by
      cases c
      · simp [Lexer.call, Lexer.getNext, Lexer.isFinished, hfin]
      · simp [Lexer.call, getCurrent_finished hfin]
    simp [Lexer.calls, h1, ih]

/-- Claim C20: the first token of an input made of whitespace and control
bytes only, the empty input among them, is `ParseEnd`; and once a call of
`getCurrent` or `getNext` has returned a `ParseEnd` token, `isFinished` is
true and any further calls leave the lexer as it is, returning that
token. -/
theorem parseEnd_terminal :
    (∀ input : List Nat, (∀ c ∈ input, isIgnored c = true) →
        firstToken input = some ⟨TokenKind.ParseEnd, []⟩) ∧
      (∀ (l0 l1 : Lexer) (c : Bool), l0.call c = some l1 →
        l1.m_lastToken.m_kind = TokenKind.ParseEnd →
        l1.isFinished = true ∧ ∀ cs : List Bool, l1.calls cs = some l1) := by
  refine ⟨fun input hw => ?_, fun l0 l1 c _ hk => ⟨?_, calls_finished hk⟩⟩
  · obtain ⟨s, hs⟩ := readToken_all_ignored input hw
    have g := getCurrent_of_readToken (l := ⟨⟨input, 0, false, false⟩, Token.default⟩)
      (by simp [Token.default]) hs
    simp [firstToken, Lexer.new, IStream.ofBytes, g]
  · simp [Lexer.isFinished, hk]

/-- Claim C20 at the input of a blank, a line feed and the control byte 0x01,
and at four further calls after the first. -/
theorem parseEnd_terminal_witness :
    firstToken [0x20, 0x0A, 0x01] = some ⟨TokenKind.ParseEnd, []⟩ ∧
      ∃ l1, (Lexer.new (IStream.ofBytes [0x20, 0x0A, 0x01])).call true = some l1 ∧
        l1.isFinished = true ∧ l1.calls [true, false, false, true] = some l1 := by
  have h := parseEnd_terminal
  refine ⟨h.1 [0x20, 0x0A, 0x01] (by decide), ?_⟩
  have hc : ∃ l1, (Lexer.new (IStream.ofBytes [0x20, 0x0A, 0x01])).call true = some l1 ∧
      l1.m_lastToken.m_kind = TokenKind.ParseEnd :=
    ⟨⟨⟨[0x20, 0x0A, 0x01], 3, true, false⟩, ⟨TokenKind.ParseEnd, []⟩⟩, by decide, rfl⟩
  obtain ⟨l1, h1, hk⟩ := hc
  exact ⟨l1, h1, (h.2 _ l1 true h1 hk).1, (h.2 _ l1 true h1 hk).2 _⟩

/-! ## Quoted values -/

theorem check_at {data : List Nat} {pos c : Nat} {rest : List Nat} (e : Nat)
    (h : data.drop pos = c :: rest) :
    check e ⟨data, pos, false, false⟩ = (c == e, ⟨data, pos, false, false⟩) := by
  simp [check, peekChar, peek_at h]

theorem getChar_end {data : List Nat} {pos : Nat} (h : data.drop pos = []) :
    getChar ⟨data, pos, false, false⟩ = Step.ok eofChar ⟨data, pos, true, true⟩ := by
  simp [getChar, IStream.get, IStream.good, getElem?_of_drop_nil h]

theorem hexValue_range {d : Nat} (h : HexDigit d) : 0 ≤ hexValue d ∧ hexValue d ≤ 9 := by
  unfold HexDigit at h
  unfold hexValue
  split
  · omega
  · split <;> omega

theorem makeCodepointLoop_hex {d : Nat} (h : HexDigit d) (ds : List Nat) (i : Nat)
    (acc : CodePoint) :
    makeCodepointLoop (d :: ds) i acc
      = makeCodepointLoop ds (i + 1) (acc + hexValue d * 2 ^ ((4 - 1 - i) * 4)) := by
  unfold HexDigit at h
  simp only [makeCodepointLoop, hexValue]
  split
  · rfl
  · split
    · rfl
    · split
      · rfl
      · omega

theorem makeCodepointLoop_not_hex {d : Nat} (h : ¬ HexDigit d) (ds : List Nat) (i : Nat)
    (acc : CodePoint) :
    makeCodepointLoop (d :: ds) i acc
      = Except.error "Unexpected symbol found in escape sequence" := by
  unfold HexDigit at h
  simp only [makeCodepointLoop]
  split
  · omega
  · split
    · omega
    · split
      · omega
      · rfl

theorem makeCodepointLoop_error :
    ∀ (ds : List Nat) (i : Nat) (acc : CodePoint), (∃ c ∈ ds, ¬ HexDigit c) →
      ∃ m, makeCodepointLoop ds i acc = Except.error m := by
  intro ds
  induction ds with
  | nil => intro i acc h; obtain ⟨c, hc, _⟩ := h; cases hc
  | cons d ds ih =>
    intro i acc h
    by_cases hd : HexDigit d
    · rw [makeCodepointLoop_hex hd]
      obtain ⟨c, hc, hn⟩ := h
      rcases List.mem_cons.mp hc with rfl | hc
      · exact absurd hd hn
      · exact ih _ _ ⟨c, hc, hn⟩
    · exact ⟨_, makeCodepointLoop_not_hex hd ds i acc⟩

/-- Function `makeCodepoint` on a sequence with a byte that is no hexadecimal
digit throws. -/
theorem makeCodepoint_error (ds : List Nat) (h : ∃ c ∈ ds, ¬ HexDigit c) :
    ∃ m, makeCodepoint ds = Except.error m := by
  obtain ⟨m, hm⟩ := makeCodepointLoop_error ds 0 0 h
  exact ⟨m, by simp [makeCodepoint, hm]⟩

/-- Function `makeCodepoint` on four hexadecimal digits: the sum of their
values, shifted, which is at most 0x9999. -/
theorem makeCodepoint_hex {h1 h2 h3 h4 : Nat} (k1 : HexDigit h1) (k2 : HexDigit h2)
    (k3 : HexDigit h3) (k4 : HexDigit h4) :
    makeCodepoint [h1, h2, h3, h4]
        = Except.ok (hexValue h1 * 4096 + hexValue h2 * 256 + hexValue h3 * 16 + hexValue h4) ∧
      hexValue h1 * 4096 + hexValue h2 * 256 + hexValue h3 * 16 + hexValue h4 ≤ 0x9999 := by
  have r1 := hexValue_range k1
  have r2 := hexValue_range k2
  have r3 := hexValue_range k3
  have r4 := hexValue_range k4
  have hb : hexValue h1 * 4096 + hexValue h2 * 256 + hexValue h3 * 16 + hexValue h4 ≤ 0x9999 := by
    omega
  have hl : makeCodepointLoop [h1, h2, h3, h4] 0 0
      = Except.ok (hexValue h1 * 4096 + hexValue h2 * 256 + hexValue h3 * 16 + hexValue h4) := by
    rw [makeCodepointLoop_hex k1, makeCodepointLoop_hex k2, makeCodepointLoop_hex k3,
      makeCodepointLoop_hex k4]
    simp [makeCodepointLoop]
  refine ⟨?_, hb⟩
  have h0 : 0 ≤ hexValue h1 * 4096 + hexValue h2 * 256 + hexValue h3 * 16 + hexValue h4 := by
    omega
  have hb2 : hexValue h1 * 4096 + hexValue h2 * 256 + hexValue h3 * 16 + hexValue h4 ≤ 0xFFFF := by
    omega
  simp [makeCodepoint, hl, h0, hb2]

theorem not_highSurrogate {cp : Int} (h : cp ≤ 0x9999) : isHighSurrogate cp = false := by
  have h1 : ¬ (0xD800 : Int) ≤ cp := by omega
  simp [isHighSurrogate, h1]


theorem readUnescaped_at {data : List Nat} {pos c : Nat} {rest : List Nat}
    (h : data.drop pos = c :: rest) (hc : iscntrl c = false) :
    readUnescaped ⟨data, pos, false, false⟩ = Step.ok c ⟨data, pos + 1, false, false⟩ := by
  simp [readUnescaped, peekChar, peek_at h, hc, getChar_at h, Step.bind]

theorem readEscaped_simple_at {data : List Nat} {pos e : Nat} {rest : List Nat}
    (h : data.drop pos = e :: rest) (he : e = 0x6E ∨ e = 0x72 ∨ e = 0x5C) :
    readEscaped ⟨data, pos, false, false⟩
      = Step.ok [escapedByte e] ⟨data, pos + 1, false, false⟩ := by
  rcases he with rfl | rfl | rfl <;>
    simp [readEscaped, check_at _ h, getChar_at h, Step.bind, escapedByte, s_escape]

theorem readEscapedCodepoint_at {data : List Nat} {pos h1 h2 h3 h4 : Nat} {rest : List Nat}
    (h : data.drop pos = h1 :: h2 :: h3 :: h4 :: rest) :
    readEscapedCodepoint ⟨data, pos, false, false⟩
      = match makeCodepoint [h1, h2, h3, h4] with
        | Except.ok codepoint => Step.ok codepoint ⟨data, pos + 4, false, false⟩
        | Except.error m => Step.thrown m ⟨data, pos + 4, false, false⟩ := by
  have d1 := drop_succ_of_drop h
  have d2 := drop_succ_of_drop d1
  have d3 := drop_succ_of_drop d2
  have e : pos + 1 + 1 + 1 + 1 = pos + 4 := by omega
  simp only [readEscapedCodepoint, getChar_at h, getChar_at d1, getChar_at d2, getChar_at d3,
    Step.bind, e]

theorem readEscaped_hex_at {data : List Nat} {pos h1 h2 h3 h4 : Nat} {rest : List Nat}
    (h : data.drop pos = 0x78 :: h1 :: h2 :: h3 :: h4 :: rest)
    (k1 : HexDigit h1) (k2 : HexDigit h2) (k3 : HexDigit h3) (k4 : HexDigit h4) :
    readEscaped ⟨data, pos, false, false⟩
      = Step.ok (Piece.hex h1 h2 h3 h4).decoded ⟨data, pos + 1 + 4, false, false⟩ := by
  have d1 := drop_succ_of_drop h
  obtain ⟨hm, hb⟩ := makeCodepoint_hex k1 k2 k3 k4
  have hs := not_highSurrogate hb
  simp [readEscaped, check_at _ h, getChar_at h, Step.bind, s_escape, readEscapedCodepoint_at d1,
    hm, hs, Piece.decoded]

/-- One turn of the loop of `readValue` on a well-formed piece. -/
theorem readValueLoop_piece {data : List Nat} {pos : Nat} (p : Piece) (hp : p.Valid)
    {tail : List Nat} (h : data.drop pos = p.source ++ tail) (fuel : Nat) (buffer : List Nat) :
    readValueLoop (fuel + 1) (peekChar ⟨data, pos, false, false⟩).1 buffer
        (peekChar ⟨data, pos, false, false⟩).2
      = readValueLoop fuel (peekChar ⟨data, pos + p.source.length, false, false⟩).1
          (buffer ++ p.decoded) (peekChar ⟨data, pos + p.source.length, false, false⟩).2 := by
  cases p with
  | plain c =>
    have h1 : data.drop pos = c :: tail := by simpa [Piece.source] using h
    obtain ⟨q1, q2, q3⟩ := hp
    have e1 : (c != s_valueEnd) = true := by simpa [s_valueEnd] using q1
    have e2 : (c == s_escape) = false := by simpa [s_escape] using q2
    simp only [peekChar, peek_at h1, readValueLoop, e1, if_true, check, e2,
      Bool.false_eq_true, if_false, readUnescaped_at h1 q3, Step.bind, Piece.source,
      Piece.decoded, List.length_singleton]
  | simple e =>
    have h1 : data.drop pos = 0x5C :: e :: tail := by simpa [Piece.source] using h
    have d1 := drop_succ_of_drop h1
    have e1 : ((0x5C : Nat) != s_valueEnd) = true := by decide
    have e2 : ((0x5C : Nat) == s_escape) = true := by decide
    simp only [peekChar, peek_at h1, readValueLoop, e1, if_true, check, e2, getChar_at h1,
      Step.bind, readEscaped_simple_at d1 hp, Piece.source, Piece.decoded, List.length_cons,
      List.length_nil]
  | hex h1 h2 h3 h4 =>
    have g1 : data.drop pos = 0x5C :: 0x78 :: h1 :: h2 :: h3 :: h4 :: tail := by
      simpa [Piece.source] using h
    have d1 := drop_succ_of_drop g1
    obtain ⟨k1, k2, k3, k4⟩ := hp
    have e1 : ((0x5C : Nat) != s_valueEnd) = true := by decide
    have e2 : ((0x5C : Nat) == s_escape) = true := by decide
    simp only [peekChar, peek_at g1, readValueLoop, e1, if_true, check, e2, getChar_at g1,
      Step.bind, readEscaped_hex_at d1 k1 k2 k3 k4, Piece.source, List.length_cons,
      List.length_nil]

/-- The loop of `readValue` over a sequence of well-formed pieces: it takes
their bytes and appends their text. -/
theorem readValueLoop_pieces :
    ∀ (ps : List Piece) (fuel : Nat) (buffer : List Nat) (data : List Nat) (pos : Nat)
      (tail : List Nat), (∀ p ∈ ps, p.Valid) → data.drop pos = sourceOf ps ++ tail →
      readValueLoop (fuel + ps.length) (peekChar ⟨data, pos, false, false⟩).1 buffer
          (peekChar ⟨data, pos, false, false⟩).2
        = readValueLoop fuel (peekChar ⟨data, pos + (sourceOf ps).length, false, false⟩).1
            (buffer ++ decodedOf ps)
            (peekChar ⟨data, pos + (sourceOf ps).length, false, false⟩).2 := by
  intro ps
  induction ps with
  | nil =>
    intro fuel buffer data pos tail _ _
    simp [sourceOf, decodedOf]
  | cons p ps ih =>
    intro fuel buffer data pos tail hv h
    have hp : p.Valid := hv p (by simp)
    have h1 : data.drop pos = p.source ++ (sourceOf ps ++ tail) := by
      simpa [sourceOf, List.append_assoc] using h
    have h2 : data.drop (pos + p.source.length) = sourceOf ps ++ tail := by
      have := List.drop_drop p.source.length pos data
      rw [← this, h1]; simp
    have step := readValueLoop_piece p hp h1 (fuel + ps.length) buffer
    have rest := ih fuel (buffer ++ p.decoded) data (pos + p.source.length) tail
      (fun q hq => hv q (by simp [hq])) h2
    have e1 : fuel + (p :: ps).length = fuel + ps.length + 1 := by simp; omega
    have e2 : pos + (sourceOf (p :: ps)).length = pos + p.source.length + (sourceOf ps).length := by
      simp [sourceOf]; omega
    rw [e1, step, rest, e2]
    simp [decodedOf, List.append_assoc]


theorem getChar_eof {data : List Nat} {pos : Nat} {f : Bool} :
    getChar ⟨data, pos, true, f⟩ = Step.thrown "Unexpected end of data" ⟨data, pos, true, f⟩ := by
  simp [getChar]

/-- When `readEscapedCodepoint` returns on a good stream, it has taken four
bytes, and `makeCodepoint` has accepted them. -/
theorem readEscapedCodepoint_ok {data : List Nat} {pos : Nat} {cp : CodePoint} {t : IStream}
    (h : readEscapedCodepoint ⟨data, pos, false, false⟩ = Step.ok cp t) :
    ∃ h1 h2 h3 h4 rest, data.drop pos = h1 :: h2 :: h3 :: h4 :: rest ∧
      t = ⟨data, pos + 4, false, false⟩ ∧ makeCodepoint [h1, h2, h3, h4] = Except.ok cp := by
  rcases hd : data.drop pos with _ | ⟨h1, _ | ⟨h2, _ | ⟨h3, _ | ⟨h4, rest⟩⟩⟩⟩
  · simp [readEscapedCodepoint, getChar_end hd, getChar_eof, Step.bind] at h
  · have d1 := drop_succ_of_drop hd
    simp [readEscapedCodepoint, getChar_at hd, getChar_end d1, getChar_eof, Step.bind] at h
  · have d1 := drop_succ_of_drop hd
    have d2 := drop_succ_of_drop d1
    simp [readEscapedCodepoint, getChar_at hd, getChar_at d1, getChar_end d2, getChar_eof,
      Step.bind] at h
  · have d1 := drop_succ_of_drop hd
    have d2 := drop_succ_of_drop d1
    have d3 := drop_succ_of_drop d2
    obtain ⟨m, hm⟩ := makeCodepoint_error [h1, h2, h3, eofChar]
      ⟨eofChar, by simp, by unfold HexDigit eofChar; omega⟩
    simp [readEscapedCodepoint, getChar_at hd, getChar_at d1, getChar_at d2, getChar_end d3,
      Step.bind, hm] at h
  · rw [readEscapedCodepoint_at hd] at h
    cases hm : makeCodepoint [h1, h2, h3, h4] with
    | error m => rw [hm] at h; cases h
    | ok v =>
      rw [hm] at h
      simp only [Step.ok.injEq] at h
      exact ⟨h1, h2, h3, h4, rest, rfl, h.2.symm, by rw [hm, h.1]⟩

theorem makeCodepoint_ok_hex {h1 h2 h3 h4 : Nat} {cp : CodePoint}
    (h : makeCodepoint [h1, h2, h3, h4] = Except.ok cp) :
    HexDigit h1 ∧ HexDigit h2 ∧ HexDigit h3 ∧ HexDigit h4 := by
  have key : ∀ c ∈ [h1, h2, h3, h4], HexDigit c := by
    intro c hc
    by_contra hn
    obtain ⟨m, hm⟩ := makeCodepoint_error [h1, h2, h3, h4] ⟨c, hc, hn⟩
    rw [hm] at h
    cases h
  exact ⟨key h1 (by simp), key h2 (by simp), key h3 (by simp), key h4 (by simp)⟩

/-- When the lambda `readEscaped` returns on a good stream, what it has taken
is a well-formed escape: one of the letters `n`, `r`, backslash, or `x` and
four hexadecimal digits; and it returns the text of that escape. -/
theorem readEscaped_ok {data : List Nat} {pos : Nat} {bytes : List Nat} {t : IStream}
    (h : readEscaped ⟨data, pos, false, false⟩ = Step.ok bytes t) :
    (∃ e rest, data.drop pos = e :: rest ∧ (e = 0x6E ∨ e = 0x72 ∨ e = 0x5C) ∧
        t = ⟨data, pos + 1, false, false⟩ ∧ bytes = [escapedByte e]) ∨
      (∃ h1 h2 h3 h4 rest, data.drop pos = 0x78 :: h1 :: h2 :: h3 :: h4 :: rest ∧
        (HexDigit h1 ∧ HexDigit h2 ∧ HexDigit h3 ∧ HexDigit h4) ∧
        t = ⟨data, pos + 1 + 4, false, false⟩ ∧ bytes = (Piece.hex h1 h2 h3 h4).decoded) := by
  rcases hd : data.drop pos with _ | ⟨e, rest⟩
  · simp [readEscaped, check, peekChar, IStream.peek, IStream.good, getElem?_of_drop_nil hd,
      eofChar, s_escape] at h
  · by_cases he : e = 0x6E ∨ e = 0x72 ∨ e = 0x5C
    · rw [readEscaped_simple_at hd he] at h
      simp only [Step.ok.injEq] at h
      exact Or.inl ⟨e, rest, rfl, he, h.2.symm, h.1.symm⟩
    · have n1 : e ≠ 0x6E := fun hh => he (Or.inl hh)
      have n2 : e ≠ 0x72 := fun hh => he (Or.inr (Or.inl hh))
      have n3 : e ≠ 0x5C := fun hh => he (Or.inr (Or.inr hh))
      by_cases hx : e = 0x78
      · subst hx
        have d1 := drop_succ_of_drop hd
        cases hr : readEscapedCodepoint ⟨data, pos + 1, false, false⟩ with
        | ok cp s2 =>
          obtain ⟨h1, h2, h3, h4, r, hdd, hs2, hm⟩ := readEscapedCodepoint_ok hr
          have hk := makeCodepoint_ok_hex hm
          have hd' : data.drop pos = 0x78 :: h1 :: h2 :: h3 :: h4 :: r := by
            rw [hd, ← d1, hdd]
          rw [readEscaped_hex_at hd' hk.1 hk.2.1 hk.2.2.1 hk.2.2.2] at h
          simp only [Step.ok.injEq] at h
          rw [d1] at hdd
          exact Or.inr ⟨h1, h2, h3, h4, r, by rw [hdd], hk, h.2.symm, h.1.symm⟩
        | thrown m s2 =>
          simp [readEscaped, check_at _ hd, getChar_at hd, Step.bind, s_escape, hr] at h
        | hang =>
          simp [readEscaped, check_at _ hd, getChar_at hd, Step.bind, s_escape, hr] at h
      · simp [readEscaped, check_at _ hd, s_escape, n1, n2, n3, hx] at h


theorem blocked_cons {x : Nat} {r : List Nat} (h : Blocked (x :: r)) :
    x ≠ 0x22 ∧ (0x20 ≤ x → Blocked r) := by
  obtain ⟨pre, c, post, he, hq, hc⟩ := h
  rcases pre with _ | ⟨y, pre⟩
  · simp only [List.nil_append, List.cons.injEq] at he
    obtain ⟨rfl, _⟩ := he
    exact ⟨by omega, fun hx => by omega⟩
  · simp only [List.cons_append, List.cons.injEq] at he
    obtain ⟨rfl, rfl⟩ := he
    simp only [List.mem_cons, not_or] at hq
    exact ⟨fun hx => hq.1 hx.symm, fun _ => ⟨pre, c, post, rfl, hq.2, hc⟩⟩

theorem blocked_ne_nil {r : List Nat} (h : Blocked r) : ∃ x r1, r = x :: r1 := by
  obtain ⟨pre, c, post, he, _, _⟩ := h
  rcases pre with _ | ⟨y, pre⟩
  · exact ⟨c, post, by simpa using he⟩
  · exact ⟨y, pre ++ c :: post, by simpa using he⟩

theorem hexDigit_ge {c : Nat} (h : HexDigit c) : 0x20 ≤ c := by
  unfold HexDigit at h; omega

/-- The loop of `readValue` never returns a token while a control byte is
ahead with no quote before it. -/
theorem readValueLoop_blocked :
    ∀ (fuel : Nat) (data : List Nat) (pos : Nat) (buffer : List Nat),
      Blocked (data.drop pos) → ∀ (tok : Token) (t : IStream),
      readValueLoop fuel (peekChar ⟨data, pos, false, false⟩).1 buffer
        (peekChar ⟨data, pos, false, false⟩).2 ≠ Step.ok tok t := by
  intro fuel
  induction fuel with
  | zero => intro data pos buffer _ tok t h; simp [readValueLoop] at h
  | succ n ih =>
    intro data pos buffer hb tok t h
    obtain ⟨x, r, hd⟩ := blocked_ne_nil hb
    rw [hd] at hb
    obtain ⟨hq, htail⟩ := blocked_cons hb
    have d1 := drop_succ_of_drop hd
    have e1 : (x != s_valueEnd) = true := by simpa [s_valueEnd] using hq
    simp only [peekChar, peek_at hd, readValueLoop, e1, if_true, check] at h
    by_cases hx : x = 0x5C
    · subst hx
      have hb1 : Blocked (data.drop (pos + 1)) := by rw [d1]; exact htail (by omega)
      have e2 : ((0x5C : Nat) == s_escape) = true := by decide
      simp only [e2, if_true, getChar_at hd, Step.bind] at h
      cases hr : readEscaped ⟨data, pos + 1, false, false⟩ with
      | ok bytes s2 =>
        rw [hr] at h
        simp only at h
        rcases readEscaped_ok hr with ⟨e, rest, hde, he, hs2, _⟩ | ⟨h1, h2, h3, h4, rest, hde, hk, hs2, _⟩
        · subst hs2
          have hb2 : Blocked (data.drop (pos + 1 + 1)) := by
            rw [drop_succ_of_drop hde]
            rw [hde] at hb1
            exact (blocked_cons hb1).2 (by rcases he with rfl | rfl | rfl <;> omega)
          exact ih data (pos + 1 + 1) _ hb2 tok t h
        · subst hs2
          have c1 := drop_succ_of_drop hde
          have c2 := drop_succ_of_drop c1
          have c3 := drop_succ_of_drop c2
          have c4 := drop_succ_of_drop c3
          have c5 := drop_succ_of_drop c4
          rw [hde] at hb1
          have b1 := (blocked_cons hb1).2 (by omega)
          have b2 := (blocked_cons b1).2 (hexDigit_ge hk.1)
          have b3 := (blocked_cons b2).2 (hexDigit_ge hk.2.1)
          have b4 := (blocked_cons b3).2 (hexDigit_ge hk.2.2.1)
          have b5 := (blocked_cons b4).2 (hexDigit_ge hk.2.2.2)
          have hb2 : Blocked (data.drop (pos + 1 + 1 + 4)) := by
            have e : pos + 1 + 1 + 4 = pos + 1 + 1 + 1 + 1 + 1 + 1 := by omega
            rw [e, c5]; exact b5
          exact ih data (pos + 1 + 1 + 4) _ hb2 tok t h
      | thrown m s2 => rw [hr] at h; simp at h
      | hang => rw [hr] at h; simp at h
    · have e2 : (x == s_escape) = false := by simpa [s_escape] using hx
      simp only [e2, Bool.false_eq_true, if_false] at h
      by_cases hc : iscntrl x = true
      · simp [readUnescaped, peekChar, peek_at hd, hc, Step.bind] at h
      · have hc1 : iscntrl x = false := by simpa using hc
        have hx20 : 0x20 ≤ x := by
          simp only [iscntrl, Bool.or_eq_false_iff, decide_eq_false_iff_not] at hc1
          omega
        have hb1 : Blocked (data.drop (pos + 1)) := by rw [d1]; exact htail hx20
        simp only [readUnescaped_at hd hc1, Step.bind] at h
        exact ih data (pos + 1) _ hb1 tok t h


theorem dispatch_value {data : List Nat} {pos : Nat} {rest : List Nat}
    (h : data.drop pos = s_valueBegin :: rest) :
    readTokenDispatch ⟨data, pos, false, false⟩ = readValue ⟨data, pos, false, false⟩ := by
  have h1 : (s_valueBegin == s_sectionBegin) = false := by decide
  have h2 : isKeyBeginner s_valueBegin = false := by decide
  have h3 : (s_valueBegin == s_keySeparator) = false := by decide
  have h4 : (s_valueBegin == s_entrySeparator) = false := by decide
  have h5 : (s_valueBegin == s_sectionEnd) = false := by decide
  simp [readTokenDispatch, check, checkIsKey, peekChar, peek_at h, h1, h2, h3, h4, h5]

theorem readValue_start {data : List Nat} {pos : Nat} {rest : List Nat}
    (h : data.drop pos = s_valueBegin :: rest) :
    readValue ⟨data, pos, false, false⟩
      = readValueLoop (data.length + 1) (peekChar ⟨data, pos + 1, false, false⟩).1 []
          (peekChar ⟨data, pos + 1, false, false⟩).2 := by
  simp [readValue, expect, check, peekChar, peek_at h, getChar_at h, Step.bind]

/-- Function `readToken` on whitespace followed by a quote: it is the loop of
`readValue` started behind the quote. -/
theorem readToken_value (w body : List Nat) (hw : ∀ c ∈ w, isspace c = true) :
    readToken ⟨w ++ s_valueBegin :: body, 0, false, false⟩
        = readValueLoop ((w ++ s_valueBegin :: body).length + 1)
            (peekChar ⟨w ++ s_valueBegin :: body, 0 + w.length + 1, false, false⟩).1 []
            (peekChar ⟨w ++ s_valueBegin :: body, 0 + w.length + 1, false, false⟩).2 ∧
      (w ++ s_valueBegin :: body).drop (0 + w.length + 1) = body := by
  generalize hd : w ++ s_valueBegin :: body = data
  have iw : ∀ x ∈ w, isIgnored x = true := fun x hx => isIgnored_of_isspace (hw x hx)
  have d0 : data.drop 0 = w ++ s_valueBegin :: body := by simp [hd]
  have d1 : data.drop (0 + w.length) = s_valueBegin :: body := by
    rw [Nat.zero_add]; exact drop_of_eq_append hd.symm
  have d2 := drop_succ_of_drop d1
  refine ⟨?_, d2⟩
  rw [readToken_skips iw (by decide) (by decide) d0, dispatch_value d1, readValue_start d1]

theorem readValueLoop_stop {data : List Nat} {pos : Nat} {rest : List Nat}
    (h : data.drop pos = s_valueEnd :: rest) (fuel : Nat) (buffer : List Nat) :
    readValueLoop (fuel + 1) (peekChar ⟨data, pos, false, false⟩).1 buffer
        (peekChar ⟨data, pos, false, false⟩).2
      = Step.ok ⟨TokenKind.Value, buffer⟩ ⟨data, pos, false, false⟩ := by
  simp [peekChar, peek_at h, readValueLoop]

theorem firstToken_of_ok {input : List Nat} {tok : Token} {t : IStream}
    (h : readToken ⟨input, 0, false, false⟩ = Step.ok tok t) : firstToken input = some tok := by
  have g := getCurrent_of_readToken (l := ⟨⟨input, 0, false, false⟩, Token.default⟩)
    (by simp [Token.default]) h
  simp [firstToken, Lexer.new, IStream.ofBytes, g]

/-- When `readToken` returns no token on the fresh stream, the first token is
a `ParseError`. -/
theorem firstToken_of_not_ok {input : List Nat}
    (h : ∀ (tok : Token) (t : IStream), readToken ⟨input, 0, false, false⟩ ≠ Step.ok tok t) :
    (firstToken input).map Token.m_kind = some TokenKind.ParseError := by
  have hi : IStream.Inv ⟨input, 0, false, false⟩ := ⟨Nat.zero_le _, fun hf => by cases hf⟩
  have he := readToken_ends hi
  cases hr : readToken ⟨input, 0, false, false⟩ with
  | ok tok t => exact absurd hr (h tok t)
  | thrown m t =>
    have g := getCurrent_of_thrown (l := ⟨⟨input, 0, false, false⟩, Token.default⟩)
      (by simp [Token.default]) hr
    simp [firstToken, Lexer.new, IStream.ofBytes, g]
  | hang => rw [hr] at he; exact absurd he id

theorem length_le_sourceOf : ∀ ps : List Piece, ps.length ≤ (sourceOf ps).length := by
  intro ps
  induction ps with
  | nil => simp [sourceOf]
  | cons p ps ih =>
    have : 1 ≤ p.source.length := by cases p <;> simp [Piece.source]
    simp [sourceOf]
    omega

/-- The first token of whitespace, a quote, well-formed pieces and a quote is
the value made of the pieces. -/
theorem firstToken_pieces (w : List Nat) (ps : List Piece) (rest : List Nat)
    (hw : ∀ c ∈ w, isspace c = true) (hv : ∀ p ∈ ps, p.Valid) :
    firstToken (w ++ s_valueBegin :: (sourceOf ps ++ s_valueEnd :: rest))
      = some ⟨TokenKind.Value, decodedOf ps⟩ := by
  obtain ⟨hr, hd⟩ := readToken_value w (sourceOf ps ++ s_valueEnd :: rest) hw
  generalize w ++ s_valueBegin :: (sourceOf ps ++ s_valueEnd :: rest) = data at hr hd ⊢
  have hlen : (sourceOf ps).length + 1 ≤ data.length := by
    have := length_le_of_drop hd
    simp at this
    omega
  have hps := length_le_sourceOf ps
  obtain ⟨f, hf⟩ : ∃ f, data.length + 1 = (f + 1) + ps.length :=
    ⟨data.length - ps.length, by omega⟩
  have h2 : data.drop (0 + w.length + 1 + (sourceOf ps).length) = s_valueEnd :: rest := by
    have := List.drop_drop (sourceOf ps).length (0 + w.length + 1) data
    rw [← this, hd]; simp
  rw [hf, readValueLoop_pieces ps (f + 1) [] data _ _ hv hd, readValueLoop_stop h2] at hr
  simpa using firstToken_of_ok hr


theorem sourceOf_append (ps qs : List Piece) : sourceOf (ps ++ qs) = sourceOf ps ++ sourceOf qs := by
  induction ps with
  | nil => rfl
  | cons p ps ih => simp [sourceOf, ih, List.append_assoc]

theorem decodedOf_append (ps qs : List Piece) :
    decodedOf (ps ++ qs) = decodedOf ps ++ decodedOf qs := by
  induction ps with
  | nil => rfl
  | cons p ps ih => simp [decodedOf, ih, List.append_assoc]

theorem sourceOf_plain (s : List Nat) : sourceOf (s.map Piece.plain) = s := by
  induction s with
  | nil => rfl
  | cons c s ih => simp [sourceOf, Piece.source, ih]

theorem decodedOf_plain (s : List Nat) : decodedOf (s.map Piece.plain) = s := by
  induction s with
  | nil => rfl
  | cons c s ih => simp [decodedOf, Piece.decoded, ih]

theorem valid_plain {s : List Nat} (hs : ∀ c ∈ s, PlainChar c) :
    ∀ p ∈ s.map Piece.plain, p.Valid := by
  intro p hp
  obtain ⟨c, hc, rfl⟩ := List.mem_map.mp hp
  exact hs c hc

/-- The lambda `readEscaped` returns nothing on what is no escape of the
language. -/
theorem readEscaped_malformed {data : List Nat} {pos : Nat}
    (hm : MalformedEscape (data.drop pos)) (bytes : List Nat) (t : IStream) :
    readEscaped ⟨data, pos, false, false⟩ ≠ Step.ok bytes t := by
  intro h
  rcases readEscaped_ok h with ⟨e, rest, hd, he, _, _⟩ | ⟨h1, h2, h3, h4, rest, hd, hk, _, _⟩
  · rw [hd] at hm
    rcases hm with hm | ⟨e1, r1, hm, n1, n2, n3, _⟩ | ⟨four, r1, hm, _, _⟩ | ⟨few, hm, _⟩
    · cases hm
    · simp only [List.cons.injEq] at hm
      obtain ⟨rfl, _⟩ := hm
      rcases he with he | he | he
      · exact n1 he
      · exact n2 he
      · exact n3 he
    · simp only [List.cons.injEq] at hm
      rcases he with he | he | he <;> omega
    · simp only [List.cons.injEq] at hm
      rcases he with he | he | he <;> omega
  · rw [hd] at hm
    rcases hm with hm | ⟨e1, r1, hm, _, _, _, n4⟩ | ⟨four, r1, hm, hl, c, hc, hn⟩ | ⟨few, hm, hl⟩
    · cases hm
    · simp only [List.cons.injEq] at hm
      exact n4 hm.1.symm
    · simp only [List.cons.injEq, true_and] at hm
      rcases four with _ | ⟨a1, _ | ⟨a2, _ | ⟨a3, _ | ⟨a4, _ | ⟨a5, four⟩⟩⟩⟩⟩ <;>
        simp at hl
      simp only [List.cons_append, List.nil_append, List.cons.injEq] at hm
      obtain ⟨rfl, rfl, rfl, rfl, _⟩ := hm
      simp only [List.mem_cons, List.mem_singleton, List.not_mem_nil, or_false] at hc
      rcases hc with rfl | rfl | rfl | rfl
      · exact hn hk.1
      · exact hn hk.2.1
      · exact hn hk.2.2.1
      · exact hn hk.2.2.2
    · simp only [List.cons.injEq, true_and] at hm
      rw [← hm] at hl
      simp at hl
      omega


/-! ## Claims on quoted values -/

/-- Claim C11 as stated fails: the byte 0x7F is no quote, no backslash and not
below 0x20, yet the first token of `"`, 0x7F, `"` is a `ParseError`, not the
value of that byte. -/
theorem value_del_counterexample :
    (∀ c ∈ [0x7F], c ≠ 0x22 ∧ c ≠ 0x5C ∧ ¬ c < 0x20) ∧
      (firstToken ([0x22] ++ [0x7F] ++ [0x22])).map Token.m_kind = some TokenKind.ParseError ∧
      firstToken ([0x22] ++ [0x7F] ++ [0x22]) ≠ some ⟨TokenKind.Value, [0x7F]⟩ := by
  decide

/-- Claim C11, amended: after any whitespace, a quoted string of bytes that
are no quote, no backslash and no control byte of `std::iscntrl` (below 0x20,
or 0x7F) is read as a `Value` token whose text is the string, byte for byte,
whatever follows the closing quote. -/
theorem firstToken_plain_value (w s rest : List Nat)
    (hw : ∀ c ∈ w, isspace c = true) (hs : ∀ c ∈ s, PlainChar c) :
    firstToken (w ++ s_valueBegin :: (s ++ s_valueEnd :: rest))
      = some ⟨TokenKind.Value, s⟩ := by
  have h := firstToken_pieces w (s.map Piece.plain) rest hw (valid_plain hs)
  rw [sourceOf_plain, decodedOf_plain] at h
  exact h

/-- Claim C11, amended, at the input of the test
`can_parse_value_with_whitespaces_before_and_after`, with the UTF-8 bytes of
the test `can_parse_value_utf8` put in: three blanks, `"v`, D1 81, `"` and two
blanks. -/
theorem firstToken_plain_value_witness :
    (∀ c ∈ [0x20, 0x20, 0x20], isspace c = true) ∧ (∀ c ∈ [0x76, 0xD1, 0x81], PlainChar c) ∧
      firstToken ([0x20, 0x20, 0x20] ++ s_valueBegin :: ([0x76, 0xD1, 0x81] ++
          s_valueEnd :: [0x20, 0x20]))
        = some ⟨TokenKind.Value, [0x76, 0xD1, 0x81]⟩ :=
  ⟨by decide, by simp [PlainChar, iscntrl],
    firstToken_plain_value [0x20, 0x20, 0x20] [0x76, 0xD1, 0x81] [0x20, 0x20] (by decide)
      (by simp [PlainChar, iscntrl])⟩

/-- Claim C12: in a quoted value, a backslash with `n`, `r` or a backslash
between plain bytes `a` and `b` is read as the one byte 0x0A, 0x0D or 0x5C,
and `a` and `b` are left as they are. -/
theorem firstToken_simple_escape (w a b rest : List Nat) (e d : Nat)
    (hw : ∀ c ∈ w, isspace c = true) (ha : ∀ c ∈ a, PlainChar c) (hb : ∀ c ∈ b, PlainChar c)
    (he : (e = 0x6E ∧ d = 0x0A) ∨ (e = 0x72 ∧ d = 0x0D) ∨ (e = 0x5C ∧ d = 0x5C)) :
    firstToken (w ++ s_valueBegin :: (a ++ s_escape :: e :: (b ++ s_valueEnd :: rest)))
      = some ⟨TokenKind.Value, a ++ d :: b⟩ := by
  have hv : ∀ p ∈ a.map Piece.plain ++ Piece.simple e :: b.map Piece.plain, p.Valid := by
    intro p hp
    rcases List.mem_append.mp hp with hp | hp
    · exact valid_plain ha p hp
    · rcases List.mem_cons.mp hp with rfl | hp
      · rcases he with ⟨h1, _⟩ | ⟨h1, _⟩ | ⟨h1, _⟩
        · exact Or.inl h1
        · exact Or.inr (Or.inl h1)
        · exact Or.inr (Or.inr h1)
      · exact valid_plain hb p hp
  have hd : escapedByte e = d := by
    rcases he with ⟨rfl, rfl⟩ | ⟨rfl, rfl⟩ | ⟨rfl, rfl⟩ <;> rfl
  have h := firstToken_pieces w (a.map Piece.plain ++ Piece.simple e :: b.map Piece.plain)
    rest hw hv
  have e1 : sourceOf (a.map Piece.plain ++ Piece.simple e :: b.map Piece.plain)
      = a ++ s_escape :: e :: b := by
    rw [sourceOf_append, sourceOf_plain]
    simp [sourceOf, Piece.source, sourceOf_plain, s_escape]
  have e2 : decodedOf (a.map Piece.plain ++ Piece.simple e :: b.map Piece.plain)
      = a ++ d :: b := by
    rw [decodedOf_append, decodedOf_plain]
    simp [decodedOf, Piece.decoded, decodedOf_plain, hd]
  rw [e1, e2] at h
  simpa [List.append_assoc] using h

/-- Claim C12 at the value `a\nb`, written with the escape. -/
theorem firstToken_simple_escape_witness :
    (∀ c ∈ ([] : List Nat), isspace c = true) ∧ (∀ c ∈ [0x61], PlainChar c) ∧
      (∀ c ∈ [0x62], PlainChar c) ∧
      ((0x6E = 0x6E ∧ 0x0A = 0x0A) ∨ (0x6E = 0x72 ∧ 0x0A = 0x0D) ∨ (0x6E = 0x5C ∧ 0x0A = 0x5C)) ∧
      firstToken ([] ++ s_valueBegin :: ([0x61] ++ s_escape :: 0x6E :: ([0x62] ++
          s_valueEnd :: [])))
        = some ⟨TokenKind.Value, [0x61] ++ 0x0A :: [0x62]⟩ :=
  ⟨by simp, by simp [PlainChar, iscntrl], by simp [PlainChar, iscntrl], Or.inl ⟨rfl, rfl⟩,
    firstToken_simple_escape [] [0x61] [0x62] [] 0x6E 0x0A (by simp)
      (by simp [PlainChar, iscntrl]) (by simp [PlainChar, iscntrl]) (Or.inl ⟨rfl, rfl⟩)⟩

/-- Claim C16: in a quoted value, after any well-formed pieces, a backslash
followed by what is no escape of the language (a byte other than `n`, `r`,
backslash, `x`; `x` and four bytes one of which is no hexadecimal digit; `x`
and fewer than four bytes at the end of the data; or nothing) makes the first
token a `ParseError`. -/
theorem firstToken_malformed_escape (w : List Nat) (ps : List Piece) (tail : List Nat)
    (hw : ∀ c ∈ w, isspace c = true) (hv : ∀ p ∈ ps, p.Valid) (hm : MalformedEscape tail) :
    (firstToken (w ++ s_valueBegin :: (sourceOf ps ++ s_escape :: tail))).map Token.m_kind
      = some TokenKind.ParseError := by
  apply firstToken_of_not_ok
  intro tok t
  obtain ⟨hr, hd⟩ := readToken_value w (sourceOf ps ++ s_escape :: tail) hw
  generalize w ++ s_valueBegin :: (sourceOf ps ++ s_escape :: tail) = data at hr hd ⊢
  have hlen : (sourceOf ps).length + 1 ≤ data.length := by
    have := length_le_of_drop hd
    simp at this
    omega
  have hps := length_le_sourceOf ps
  obtain ⟨f, hf⟩ : ∃ f, data.length + 1 = (f + 1) + ps.length :=
    ⟨data.length - ps.length, by omega⟩
  have h2 : data.drop (0 + w.length + 1 + (sourceOf ps).length) = s_escape :: tail := by
    have := List.drop_drop (sourceOf ps).length (0 + w.length + 1) data
    rw [← this, hd]; simp
  have h3 := drop_succ_of_drop h2
  have hm3 : MalformedEscape (data.drop (0 + w.length + 1 + (sourceOf ps).length + 1)) := by
    rw [h3]; exact hm
  rw [hr, hf, readValueLoop_pieces ps (f + 1) [] data _ _ hv hd]
  have e1 : (s_escape != s_valueEnd) = true := by decide
  simp only [peekChar, peek_at h2, readValueLoop, e1, if_true, check, beq_self_eq_true,
    getChar_at h2, Step.bind]
  cases hx : readEscaped ⟨data, 0 + w.length + 1 + (sourceOf ps).length + 1, false, false⟩ with
  | ok bytes s2 => exact absurd hx (readEscaped_malformed hm3 bytes s2)
  | thrown m s2 => simp
  | hang => simp

/-- Claim C16 at the input of the test
`can_not_parse_value_with_too_short_escape_sequence`, `"\x123"`: the closing
quote is the fourth byte after `x`. -/
theorem firstToken_malformed_escape_witness :
    (∀ c ∈ ([] : List Nat), isspace c = true) ∧ (∀ p ∈ ([] : List Piece), p.Valid) ∧
      MalformedEscape [0x78, 0x31, 0x32, 0x33, 0x22] ∧
      (firstToken ([] ++ s_valueBegin :: (sourceOf [] ++ s_escape ::
          [0x78, 0x31, 0x32, 0x33, 0x22]))).map Token.m_kind = some TokenKind.ParseError :=
  have hm : MalformedEscape [0x78, 0x31, 0x32, 0x33, 0x22] :=
    Or.inr (Or.inr (Or.inl ⟨[0x31, 0x32, 0x33, 0x22], [], rfl, rfl, 0x22, by simp,
      by unfold HexDigit; omega⟩))
  ⟨by simp, by simp, hm,
    firstToken_malformed_escape [] [] [0x78, 0x31, 0x32, 0x33, 0x22] (by simp) (by simp) hm⟩

/-- Claim C17: after any whitespace and a quote, a control byte below 0x20
that no quote precedes makes the first token a `ParseError`, whatever
precedes and follows it. -/
theorem firstToken_control_in_value (w pre post : List Nat) (c : Nat)
    (hw : ∀ x ∈ w, isspace x = true) (hq : 0x22 ∉ pre) (hc : c < 0x20) :
    (firstToken (w ++ s_valueBegin :: (pre ++ c :: post))).map Token.m_kind
      = some TokenKind.ParseError := by
  apply firstToken_of_not_ok
  intro tok t
  obtain ⟨hr, hd⟩ := readToken_value w (pre ++ c :: post) hw
  rw [hr]
  exact readValueLoop_blocked _ _ _ _ (by rw [hd]; exact ⟨pre, c, post, rfl, hq, hc⟩) tok t

/-- Claim C17 at the input of the test
`can_not_parse_value_with_control_chars`, the quoted bytes 0x02, `qq`, 0x15;
here with `q` put before the first control byte. -/
theorem firstToken_control_in_value_witness :
    (∀ x ∈ ([] : List Nat), isspace x = true) ∧ 0x22 ∉ [0x71] ∧ 0x02 < 0x20 ∧
      (firstToken ([] ++ s_valueBegin :: ([0x71] ++ 0x02 :: [0x71, 0x71, 0x15, 0x22]))).map
        Token.m_kind = some TokenKind.ParseError :=
  ⟨by simp, by simp, by decide,
    firstToken_control_in_value [] [0x71] [0x71, 0x71, 0x15, 0x22] 0x02 (by simp) (by simp)
      (by decide)⟩

/-! ## Reading behind a byte order mark -/

/-- Claim C25: for a high surrogate `h` and a low surrogate `l`,
`makeSurrogate h l` is `0x10000 + (h - 0xD800) * 0x400 + (l - 0xDC00)`; the
shift it is computed with stays inside a 32-bit `int`; the result lies from
0x10000 to 0x10FFFF; and two pairs with the same result are the same pair. -/
theorem makeSurrogate_formula (h l : Int) (hh : 0xD800 ≤ h ∧ h ≤ 0xDBFF)
    (hl : 0xDC00 ≤ l ∧ l ≤ 0xDFFF) :
    makeSurrogate h l = 0x10000 + (h - 0xD800) * 0x400 + (l - 0xDC00) ∧
      h * 2 ^ 10 + l < 2 ^ 31 ∧
      0x10000 ≤ makeSurrogate h l ∧ makeSurrogate h l ≤ 0x10FFFF ∧
      ∀ h2 l2 : Int, 0xD800 ≤ h2 ∧ h2 ≤ 0xDBFF → 0xDC00 ≤ l2 ∧ l2 ≤ 0xDFFF →
        makeSurrogate h l = makeSurrogate h2 l2 → h = h2 ∧ l = l2 := by
  have p10 : (2 : Int) ^ 10 = 1024 := by decide
  have p31 : (2 : Int) ^ 31 = 2147483648 := by decide
  unfold makeSurrogate
  delta CodePoint
  rw [p10, p31]
  refine ⟨by omega, by omega, by omega, by omega, ?_⟩
  intro h2 l2 hh2 hl2 he
  constructor <;> omega

/-- Claim C25 at the pair of the test `can_parse_value_with_surrogate_pair`,
DBFF and DFFF: the result is 0x10FFFF. -/
theorem makeSurrogate_formula_witness :
    ((0xD800 : Int) ≤ 0xDBFF ∧ (0xDBFF : Int) ≤ 0xDBFF) ∧
      ((0xDC00 : Int) ≤ 0xDFFF ∧ (0xDFFF : Int) ≤ 0xDFFF) ∧
      makeSurrogate 0xDBFF 0xDFFF = 0x10FFFF := by
  have h := makeSurrogate_formula 0xDBFF 0xDFFF (by decide) (by decide)
  exact ⟨by decide, by decide, h.1.trans (by decide)⟩

/-! ## Claims on the token after a value and on the tree -/

/-- Claim C22, at the input `"a":`: the first token is the value `a`; the
token after it is not the `:` that lexing `:` alone gives, it is a
`ParseError`: the closing quote is still in the stream and opens a value that
the end of the data cuts. -/
theorem token_after_value_actual :
    tokenAfter 0 (strBytes "\"a\":") = some ⟨TokenKind.Value, strBytes "a"⟩ ∧
      tokenAfter 1 (strBytes "\"a\":")
        = some ⟨TokenKind.ParseError,
            strBytes "Parse error at position -1: Unexpected end of data"⟩ ∧
      tokenAfter 0 (strBytes ":") = some ⟨TokenKind.KeyValueSeparator, strBytes ":"⟩ := by
  decide

/-- Claim C23, at the products of `{ key: "value" }`: the tree that
`makeOutputTree` returns has the one entry `":" -> ""`; the entry
`"key" -> "value"` is not in it. -/
theorem makeOutputTree_entry_actual :
    makeOutputTree [⟨ProductKind.SectionBegin, []⟩, ⟨ProductKind.Entry, []⟩,
        ⟨ProductKind.Key, strBytes "key"⟩, ⟨ProductKind.Value, strBytes "value"⟩,
        ⟨ProductKind.SectionEnd, []⟩]
      = [(strBytes ":", [])] := by
  decide

/-! ## The token of a byte that starts no token -/

theorem peek_of_byte {s : IStream} {c : Nat} (hg : s.good = true)
    (hc : s.data[s.pos]? = some c) : s.peek = (c, s) := by
  simp [IStream.peek, hg, hc]

theorem peek_of_end {s : IStream} (hg : s.good = true) (hc : s.data[s.pos]? = none) :
    s.peek = (eofChar, { s with eofbit := true }) := by
  simp [IStream.peek, hg, hc]

theorem peek_of_not_good {s : IStream} (hg : ¬ s.good = true) :
    s.peek = (eofChar, { s with failbit := true }) := by
  simp [IStream.peek, hg]

/-- A `peek` that leaves the stream good has seen a byte of the data. -/
theorem byte_of_peek_good {s : IStream} (h : s.peek.2.good = true) :
    s.good = true ∧ ∃ c, s.data[s.pos]? = some c ∧ s.peek = (c, s) := by
  by_cases hg : s.good = true
  · cases hd : s.data[s.pos]? with
    | some c => exact ⟨hg, c, rfl, peek_of_byte hg hd⟩
    | none =>
      rw [peek_of_end hg hd] at h
      simp [IStream.good] at h
  · rw [peek_of_not_good hg] at h
    simp [IStream.good] at h

theorem peek_ignored {s : IStream} (h : isIgnored s.peek.1 = true) :
    s.good = true ∧ ∃ c, s.data[s.pos]? = some c ∧ s.peek = (c, s) := by
  have he : isIgnored eofChar = false := by decide
  by_cases hg : s.good = true
  · cases hd : s.data[s.pos]? with
    | some c => exact ⟨hg, c, rfl, peek_of_byte hg hd⟩
    | none =>
      rw [peek_of_end hg hd, he] at h
      cases h
  · rw [peek_of_not_good hg, he] at h
    cases h

/-- When `skipIgnored` leaves the stream good, the stream was good before, and
the byte it stops at is a byte of the data that is not ignored. -/
theorem skipIgnoredLoop_good :
    ∀ (fuel : Nat) (x t : IStream),
      skipIgnoredLoop fuel x.peek.1 x.peek.2 = Step.ok () t → t.good = true →
      x.good = true ∧ ∃ c, t.data[t.pos]? = some c ∧ isIgnored c = false := by
  intro fuel
  induction fuel with
  | zero => intro x t h _; simp [skipIgnoredLoop] at h
  | succ n ih =>
    intro x t h hg
    unfold skipIgnoredLoop at h
    by_cases hi : isIgnored x.peek.1 = true
    · obtain ⟨hx, c0, hc0, hp⟩ := peek_ignored hi
      obtain ⟨he, hfl⟩ := flags_of_good hx
      rw [if_pos hi, hp] at h
      simp only [getChar, he, IStream.get, hx, hc0, if_true, Bool.false_eq_true, if_false,
        Step.bind, peekChar] at h
      exact ⟨hx, (ih _ t h hg).2⟩
    · rw [if_neg hi] at h
      cases h
      obtain ⟨hx, c, hc, hp⟩ := byte_of_peek_good hg
      rw [hp] at hi ⊢
      exact ⟨hx, c, hc, by simpa using hi⟩

theorem skipIgnored_good {x t : IStream} (h : skipIgnored x = Step.ok () t)
    (hg : t.good = true) :
    x.good = true ∧ ∃ c, t.data[t.pos]? = some c ∧ isIgnored c = false :=
  skipIgnoredLoop_good _ x t h hg

theorem single_tok {c : Nat} {msg : String} {tk tok : Token} {s u : IStream}
    (h : ((expect c msg s).bind fun _ s1 => Step.ok tk s1) = Step.ok tok u) : tok = tk := by
  cases he : expect c msg s with
  | ok a t => rw [he] at h; simp only [Step.bind] at h; cases h; rfl
  | thrown m t => rw [he] at h; simp [Step.bind] at h
  | hang => rw [he] at h; simp [Step.bind] at h

/-- The dispatch of `readToken` at a byte of the data: when it returns a
`ParseError` token, the byte starts no token, the token is `Syntax error` and
the stream is left where it was. -/
theorem dispatch_parseError {s u : IStream} {c : Nat} {tok : Token} (hi : s.Inv)
    (hg : s.good = true) (hc : s.data[s.pos]? = some c)
    (h : readTokenDispatch s = Step.ok tok u) (hk : tok.m_kind = TokenKind.ParseError) :
    tok = ⟨TokenKind.ParseError, strBytes "Syntax error"⟩ ∧ u = s := by
  have hp := peek_of_byte hg hc
  unfold readTokenDispatch at h
  simp only [check, checkIsKey, peekChar, hp] at h
  split at h
  · have e := single_tok h
    rw [e] at hk; cases hk
  · split at h
    · have e := readKey_ends hi
      rw [h] at e
      rw [e.2.1] at hk; cases hk
    · split at h
      · have e := single_tok h
        rw [e] at hk; cases hk
      · split at h
        · have e := single_tok h
          rw [e] at hk; cases hk
        · split at h
          · have e := single_tok h
            rw [e] at hk; cases hk
          · split at h
            · have e := readValue_ends hi
              rw [h] at e
              rw [e.2.1] at hk; cases hk
            · cases h
              exact ⟨rfl, rfl⟩

/-- Function `readToken` called again at a byte that is not ignored and that
is not the first of a byte order mark: it dispatches on the same byte. -/
theorem readToken_restart {s : IStream} {c : Nat} (hg : s.good = true)
    (hc : s.data[s.pos]? = some c) (hi : isIgnored c = false)
    (hb : s.pos = 0 → c ≠ 0xEF) : readToken s = readTokenDispatch s := by
  have hp := peek_of_byte hg hc
  have hskip : skipIgnored s = Step.ok () s := by
    simp [skipIgnored, skipIgnoredLoop, peekChar, hp, hi]
  have hgood : (!s.good) = false := by simp [hg]
  unfold readToken
  simp only [getPosition, tellg_good hg]
  by_cases hz : s.pos = 0
  · have hbom : skipBom s = Step.ok () s := by
      simp [skipBom, check, peekChar, hp, hb hz]
    simp [hz, hbom, Step.bind, hskip, hg]
  · have hne : ((s.pos : Int) == 0) = false := by
      simp only [beq_eq_false_iff_ne, ne_eq]
      omega
    simp [hne, Step.bind, hskip, hg]

/-- A byte order mark that `skipBom` takes moves the stream forward. -/
theorem skipBom_moves {s : IStream} (h : s.Inv) (hb : s.peek.1 = 0xEF) :
    Step.Ends s (fun _ t => s.pos < t.pos) (skipBom s) := by
  unfold skipBom
  simp only [check, peekChar, hb, beq_self_eq_true, if_true]
  refine ends_bind (getChar_after_peek h) (fun _ t ht hq => ?_)
  exact ends_mono (expectStr_ends _ _ ht.2.2 hq.2) (fun _ u hu _ => by
    have := hu.2.1
    omega)

/-- The first part of `readToken`, up to the byte it dispatches on: when that
byte is at offset 0, it is not the first byte of a byte order mark. -/
theorem first_byte_ne_bom {s s1 s2 : IStream} {c : Nat} (hi : s.Inv)
    (h1 : (if (getPosition s).1 == 0 then skipBom (getPosition s).2
      else Step.ok () (getPosition s).2) = Step.ok () s1)
    (hg1 : s1.good = true) (hr : s1.Reach s2) (hz : s2.pos = 0)
    (hc : s2.data[s2.pos]? = some c) : c ≠ 0xEF := by
  have hle : s1.pos ≤ s2.pos := hr.2.1
  by_cases hg : s.good = true
  · simp only [getPosition, tellg_good hg] at h1
    by_cases hp : s.pos = 0
    · simp only [hp, Int.ofNat_zero, Nat.cast_zero, beq_self_eq_true, if_true] at h1
      by_cases hb : s.peek.1 = 0xEF
      · have e := skipBom_moves hi hb
        rw [h1] at e
        have := e.2
        omega
      · have hb1 : (s.peek.1 == 0xEF) = false := by simp [hb]
        simp only [skipBom, check, peekChar, hb1, Bool.false_eq_true, if_false] at h1
        cases h1
        obtain ⟨_, c0, hc0, hp0⟩ := byte_of_peek_good hg1
        rw [hp0] at hb hr
        have hd : s2.data = s.data := hr.1
        rw [hd, hz, ← hp, hc0] at hc
        cases hc
        exact hb
    · have hne : ((s.pos : Int) == 0) = false := by
        simp only [beq_eq_false_iff_ne, ne_eq]
        omega
      simp only [hne, Bool.false_eq_true, if_false] at h1
      cases h1
      omega
  · have ht : s.tellg = (-1, { s with failbit := true }) := by simp [IStream.tellg, hg]
    simp only [getPosition, ht] at h1
    have hne : ((-1 : Int) == 0) = false := by decide
    simp only [hne, Bool.false_eq_true, if_false] at h1
    cases h1
    simp [IStream.good] at hg1

/-- A `ParseError` token that `readToken` returns without an exception is the
token `Syntax error`, and `readToken` returns it again from the stream it
leaves, which stays as it is. -/
theorem readToken_parseError {s t : IStream} {tok : Token} (hi : s.Inv)
    (h : readToken s = Step.ok tok t) (hk : tok.m_kind = TokenKind.ParseError) :
    tok = ⟨TokenKind.ParseError, strBytes "Syntax error"⟩ ∧ readToken t = Step.ok tok t := by
  have p0 := tellg_reach hi
  have e1 : Step.Ends s (fun (_ : Unit) _ => True)
      (if (getPosition s).1 == 0 then skipBom (getPosition s).2
        else Step.ok () (getPosition s).2) := by
    simp only [getPosition]
    split
    · exact ends_from p0 (skipBom_ends p0.2.2)
    · exact ⟨p0, trivial⟩
  unfold readToken at h
  simp only at h
  cases h1 : (if (getPosition s).1 == 0 then skipBom (getPosition s).2
      else Step.ok () (getPosition s).2) with
  | thrown m u => rw [h1] at h; simp [Step.bind] at h
  | hang => rw [h1] at h; simp [Step.bind] at h
  | ok a s1 =>
    rw [h1] at h e1
    simp only [Step.bind] at h
    have i1 : s1.Inv := e1.1.2.2
    have e2 := skipIgnored_ends i1
    cases h2 : skipIgnored s1 with
    | thrown m u => rw [h2] at h; simp at h
    | hang => rw [h2] at h; simp at h
    | ok b s2 =>
      rw [h2] at h e2
      simp only at h
      have r2 : s1.Reach s2 := e2.1
      by_cases hg2 : s2.good = true
      · simp only [hg2, Bool.not_true, Bool.false_eq_true, if_false] at h
        obtain ⟨hg1, c, hc, hig⟩ := skipIgnored_good h2 hg2
        obtain ⟨htok, hu⟩ := dispatch_parseError r2.2.2 hg2 hc h hk
        have hb : s2.pos = 0 → c ≠ 0xEF := fun hz => first_byte_ne_bom hi h1 hg1 r2 hz hc
        subst hu
        exact ⟨htok, (readToken_restart hg2 hc hig hb).trans h⟩
      · have hng : (!s2.good) = true := by simpa using hg2
        simp only [hng, if_true] at h
        split at h
        · cases h
          cases hk
        · cases h

theorem strBytes_append (a b : String) : strBytes (a ++ b) = strBytes a ++ strBytes b := by
  simp [strBytes, String.toList, String.data_append]

/-- The text that `getNext` makes of an exception is not the text
`Syntax error`. -/
theorem thrown_text_ne (n : Int) (m : String) :
    strBytes ("Parse error at position " ++ toString n ++ ": " ++ m)
      ≠ strBytes "Syntax error" := by
  rw [String.append_assoc, String.append_assoc, strBytes_append]
  generalize strBytes (toString n ++ (": " ++ m)) = rest
  intro h
  have h1 := congrArg List.head? h
  have h2 : (strBytes "Parse error at position " ++ rest).head? = some 80 := rfl
  have h3 : (strBytes "Syntax error").head? = some 83 := by decide
  rw [h2, h3] at h1
  cases h1

/-- What holds of a lexer after any calls: when its last token is
`Syntax error`, `readToken` returns that token again and leaves the stream as
it is. -/
theorem getNext_stuck {l l1 : Lexer} (hi : l.m_stream.Inv)
    (hs : l.m_lastToken = ⟨TokenKind.ParseError, strBytes "Syntax error"⟩ →
      readToken l.m_stream
        = Step.ok ⟨TokenKind.ParseError, strBytes "Syntax error"⟩ l.m_stream)
    (h : l.getNext = some l1) :
    l1.m_stream.Inv ∧
      (l1.m_lastToken = ⟨TokenKind.ParseError, strBytes "Syntax error"⟩ →
        readToken l1.m_stream
          = Step.ok ⟨TokenKind.ParseError, strBytes "Syntax error"⟩ l1.m_stream) := by
  obtain ⟨l2, h2, hl, _⟩ := getNext_spec hi
  rw [h] at h2
  cases h2
  refine ⟨hl.1.2.2, ?_⟩
  unfold Lexer.getNext at h
  by_cases hf : l.isFinished = true
  · simp only [hf, if_true] at h
    cases h
    exact hs
  · simp only [hf, if_false] at h
    cases hr : readToken l.m_stream with
    | ok tok t =>
      rw [hr] at h
      cases h
      intro hk
      have hk1 : tok = ⟨TokenKind.ParseError, strBytes "Syntax error"⟩ := hk
      have := (readToken_parseError hi hr (by rw [hk1])).2
      rw [hk1] at this
      exact this
    | thrown m t =>
      rw [hr] at h
      cases h
      intro hk
      have hk1 := congrArg Token.m_value hk
      exact absurd hk1 (thrown_text_ne _ _)
    | hang => rw [hr] at h; cases h

theorem call_eq_getNext (l : Lexer) (c : Bool) : l.call c = l.getNext := by
  cases c
  · rfl
  · simp [Lexer.call, getCurrent_eq_getNext]

theorem calls_stuck :
    ∀ (cs : List Bool) (l l1 : Lexer), l.m_stream.Inv →
      (l.m_lastToken = ⟨TokenKind.ParseError, strBytes "Syntax error"⟩ →
        readToken l.m_stream
          = Step.ok ⟨TokenKind.ParseError, strBytes "Syntax error"⟩ l.m_stream) →
      l.calls cs = some l1 →
      l1.m_stream.Inv ∧
        (l1.m_lastToken = ⟨TokenKind.ParseError, strBytes "Syntax error"⟩ →
          readToken l1.m_stream
            = Step.ok ⟨TokenKind.ParseError, strBytes "Syntax error"⟩ l1.m_stream) := by
  intro cs
  induction cs with
  | nil =>
    intro l l1 hi hs h
    cases h
    exact ⟨hi, hs⟩
  | cons c cs ih =>
    intro l l1 hi hs h
    simp only [Lexer.calls, call_eq_getNext] at h
    cases hn : l.getNext with
    | none => rw [hn] at h; cases h
    | some l2 =>
      rw [hn] at h
      obtain ⟨hi2, hs2⟩ := getNext_stuck hi hs hn
      exact ih l2 l1 hi2 hs2 h

theorem calls_syntaxError {l : Lexer}
    (hk : l.m_lastToken = ⟨TokenKind.ParseError, strBytes "Syntax error"⟩)
    (hs : readToken l.m_stream
      = Step.ok ⟨TokenKind.ParseError, strBytes "Syntax error"⟩ l.m_stream) :
    ∀ cs : List Bool, l.calls cs = some l := by
  have hf : l.isFinished = false := by
    simp [Lexer.isFinished, hk]
  have h1 : l.getNext = some l := by
    obtain ⟨s, tok⟩ := l
    simp only at hk hs
    subst hk
    simp [Lexer.getNext, Lexer.isFinished, hs]
  intro cs
  induction cs with
  | nil => rfl
  | cons c cs ih => simp [Lexer.calls, call_eq_getNext, h1, ih]

/-! ## Claims on the tokens after an error -/

/-- Claim C21, as stated, fails: on the input `k` the first token is a
`ParseError` and the token after it is `ParseEnd`; on the input `"\q:` the
first token is a `ParseError` and the token after it is the key `q`. -/
theorem parseError_not_terminal :
    tokenAfter 0 (strBytes "k")
        = some ⟨TokenKind.ParseError,
            strBytes "Parse error at position -1: Unexpected symbol found in key"⟩ ∧
      tokenAfter 1 (strBytes "k") = some ⟨TokenKind.ParseEnd, []⟩ ∧
      tokenAfter 0 (strBytes "\"\\q:")
        = some ⟨TokenKind.ParseError,
            strBytes "Parse error at position 2: Unknown escape sequence"⟩ ∧
      tokenAfter 1 (strBytes "\"\\q:") = some ⟨TokenKind.Key, strBytes "q"⟩ := by
  decide

/-- Claim C21, amended: the `ParseError` token `Syntax error`, made for a
byte that starts no token, is terminal: once any calls of `getCurrent` and
`getNext` on the lexer of an input have returned it, every further sequence of
calls returns it again and leaves the lexer as it is. -/
theorem syntaxError_terminal (input : List Nat) (cs : List Bool) (l : Lexer)
    (h : (Lexer.new (IStream.ofBytes input)).calls cs = some l)
    (hk : l.m_lastToken = ⟨TokenKind.ParseError, strBytes "Syntax error"⟩) :
    ∀ cs2 : List Bool, l.calls cs2 = some l := by
  have hi : (Lexer.new (IStream.ofBytes input)).m_stream.Inv :=
    ⟨Nat.zero_le _, fun hf => by cases hf⟩
  have h0 : (Lexer.new (IStream.ofBytes input)).m_lastToken
      = ⟨TokenKind.ParseError, strBytes "Syntax error"⟩ →
      readToken (Lexer.new (IStream.ofBytes input)).m_stream
        = Step.ok ⟨TokenKind.ParseError, strBytes "Syntax error"⟩
            (Lexer.new (IStream.ofBytes input)).m_stream := by
    intro hd
    simp [Lexer.new, Token.default] at hd
  exact calls_syntaxError hk ((calls_stuck cs _ l hi h0 h).2 hk)

/-- Claim C21, amended, at the input `a #b`: the call after the key `a`
returns `Syntax error` for the byte `#`, and so does every call after it. -/
theorem syntaxError_terminal_witness :
    (Lexer.new (IStream.ofBytes (strBytes "a #b"))).calls [true, false]
        = some ⟨⟨strBytes "a #b", 2, false, false⟩,
            ⟨TokenKind.ParseError, strBytes "Syntax error"⟩⟩ ∧
      ∀ cs2 : List Bool,
        Lexer.calls cs2 ⟨⟨strBytes "a #b", 2, false, false⟩,
            ⟨TokenKind.ParseError, strBytes "Syntax error"⟩⟩
          = some ⟨⟨strBytes "a #b", 2, false, false⟩,
              ⟨TokenKind.ParseError, strBytes "Syntax error"⟩⟩ :=
  ⟨by decide, syntaxError_terminal (strBytes "a #b") [true, false] _ (by decide) rfl⟩

/-! ## Claims on the end of parsing -/

/-- A transition that finds a `ParseError` token fails. -/
theorem doTransition_parseError (state : StateKind) {l l1 : Lexer} (hi : l.m_stream.Inv)
    (h : l.getCurrent = some l1) (hk : l1.m_lastToken.m_kind = TokenKind.ParseError) :
    ∃ f l2, doTransition state l = some (Action.Fail f, l2) := by
  obtain ⟨l1a, h1, hl, _⟩ := getNext_spec hi
  rw [getCurrent_eq_getNext, h1] at h
  cases h
  obtain ⟨l2, h2, _, _⟩ := getNext_spec hl.1.2.2
  have hd : doTransition state l
      = some (Action.fail state l2.m_lastToken.m_kind (getPosition l2.m_stream).1,
          { l2 with m_stream := (getPosition l2.m_stream).2 }) := by
    simp only [doTransition, checkKind, getCurrent_eq_getNext, h1, hk, beq_self_eq_true, h2]
  exact ⟨_, _, hd⟩

/-- Claim C26, as stated, fails in the reason it gives: in the parse of
`a a a a a k `, after the transitions of `Start`, `Section` and
`SectionBegin`, the transition of the state `Entry` starts at the key `k`,
obtains from the lexer the token `ParseEnd`, neither a `Key` nor an
`EntrySeparator`, and pushes three states although the lexer is at
`ParseEnd`. -/
theorem entry_pushes_at_parseEnd :
    ∃ l1 l2 l3 l4 : Lexer,
      doTransition StateKind.Start (Lexer.new (IStream.ofBytes (strBytes "a a a a a k ")))
          = some (Action.Expect [StateKind.Section], l1) ∧
        doTransition StateKind.Section l1
          = some (Action.Expect [StateKind.SectionBegin, StateKind.Entries,
              StateKind.SectionEnd], l2) ∧
        doTransition StateKind.SectionBegin l2
          = some (Action.Expect [StateKind.Entry, StateKind.NextEntry], l3) ∧
        l3.m_lastToken = ⟨TokenKind.Key, strBytes "k"⟩ ∧
        doTransition StateKind.Entry l3
          = some (Action.Expect [StateKind.Key, StateKind.KeyValueSeparator,
              StateKind.Value], l4) ∧
        l4.m_lastToken = ⟨TokenKind.ParseEnd, []⟩ ∧ l4.isFinished = true :=
  ⟨⟨⟨strBytes "a a a a a k ", 1, false, false⟩, ⟨TokenKind.Key, strBytes "a"⟩⟩,
    ⟨⟨strBytes "a a a a a k ", 3, false, false⟩, ⟨TokenKind.Key, strBytes "a"⟩⟩,
    ⟨⟨strBytes "a a a a a k ", 11, false, false⟩, ⟨TokenKind.Key, strBytes "k"⟩⟩,
    ⟨⟨strBytes "a a a a a k ", 12, true, false⟩, ⟨TokenKind.ParseEnd, []⟩⟩,
    by decide, by decide, by decide, by decide, by decide, by decide, by decide⟩

/-- Claim C26, amended: the parse of every input returns within the turns of
the loop granted to it, eight for each byte and eight more.  Every
transition returns; unless it fails, five times the bytes left to the lexer
plus the weight of the states it pushes is less than five times the bytes
left before plus the weight of the state it was called for, so that the
bytes left and the weight of the stack, taken together, go down with every
turn.  A transition that finds a `ParseError` token pushes nothing: it
fails. -/
theorem parse_terminates (input : List Nat) :
    (∃ r, parseLoop (8 * input.length + 8) [StateKind.Start] []
        (Lexer.new (IStream.ofBytes input)) = some r ∧ parse input = some r) ∧
      (∀ (state : StateKind) (l : Lexer), l.m_stream.Inv →
        ∃ a l1, doTransition state l = some (a, l1) ∧
          ((∃ f, a = Action.Fail f) ∨
            (l1.m_stream.Inv ∧ 5 * l1.left + a.pushed < 5 * l.left + state.weight))) ∧
      (∀ (state : StateKind) (l l1 : Lexer), l.m_stream.Inv → l.getCurrent = some l1 →
        l1.m_lastToken.m_kind = TokenKind.ParseError →
        ∃ f l2, doTransition state l = some (Action.Fail f, l2)) := by
  refine ⟨?_, fun state l hi => ?_, fun state l l1 hi h hk => doTransition_parseError state hi h hk⟩
  · obtain ⟨r, hr⟩ := parse_total input
    exact ⟨r, hr, hr⟩
  · have hs := doTransition_sound state hi
    cases hd : doTransition state l with
    | none => rw [hd] at hs; exact absurd hs id
    | some p =>
      obtain ⟨a, l1⟩ := p
      rw [hd] at hs
      refine ⟨a, l1, rfl, ?_⟩
      cases a with
      | Fail f => exact Or.inl ⟨f, rfl⟩
      | Expect e => exact Or.inr hs
      | Produce e => exact Or.inr hs

/-- Claim C26, amended, at the input `a a a a a k `: the parse returns; and
the transition of `Entry` at the key `k`, which pushes three states, leaves
no byte of the one byte that was left. -/
theorem parse_terminates_witness :
    parse (strBytes "a a a a a k ") = some ⟨true, [], none⟩ ∧
      IStream.Inv ⟨strBytes "a a a a a k ", 11, false, false⟩ ∧
      ∃ a l1,
        doTransition StateKind.Entry
            ⟨⟨strBytes "a a a a a k ", 11, false, false⟩, ⟨TokenKind.Key, strBytes "k"⟩⟩
          = some (a, l1) ∧
        ((∃ f, a = Action.Fail f) ∨
          (l1.m_stream.Inv ∧
            5 * l1.left + a.pushed
              < 5 * Lexer.left ⟨⟨strBytes "a a a a a k ", 11, false, false⟩,
                  ⟨TokenKind.Key, strBytes "k"⟩⟩ + StateKind.weight StateKind.Entry)) := by
  have hi : IStream.Inv ⟨strBytes "a a a a a k ", 11, false, false⟩ :=
    ⟨by decide, fun hf => by cases hf⟩
  have h := parse_terminates (strBytes "a a a a a k ")
  obtain ⟨r, _, hr⟩ := h.1
  have hv : parse (strBytes "a a a a a k ") = some ⟨true, [], none⟩ := by decide
  exact ⟨hv, hi, h.2.1 StateKind.Entry _ hi⟩

end parsing
